import Mathlib

set_option maxHeartbeats 1000000

/-!
Verification development for `gnucashxml.py` (andyjscott/gnucashxml).

The Python source is shallowly embedded: pure functions become Lean
functions, the mutable parsing state (commodity registry, account
linking) becomes explicit state passing, and code that can raise a
Python exception returns `Except`/`Option`.  CPython object identity,
where it matters (the commodity registry), is modelled by an explicit
allocation counter: every evaluation of the `Commodity(...)`
constructor yields a fresh `oid`.
-/

namespace Gnucash

namespace Walk

/--
An account tree as assembled by `_book_from_tree`.  The Python
`Account` object carries `name`, `guid`, `actype` and a mutable
`children` list; back references (`parent`, and the `Split` objects'
`account`/`transaction` pointers) make the runtime object graph
cyclic, so here the tree is the inductive structure reachable through
`children`, and the splits attached to an account are represented by
their guids.  A "valid document" is one whose parent links form a
tree, which is exactly what this inductive type expresses.
-/
inductive Account where
  | mk (name guid actype : String) (splits : List String) (children : List Account)

/-- The `children` attribute of an account. -/
def Account.children : Account → List Account
  | .mk _ _ _ _ cs => cs

/-- The `splits` attribute of an account (split guids). -/
def Account.splits : Account → List String
  | .mk _ _ _ s _ => s

mutual

/-- Number of accounts in the subtree rooted at an account. -/
def Account.nodes : Account → Nat
  | .mk _ _ _ _ cs => 1 + nodesList cs

/-- Number of accounts in a forest. -/
def nodesList : List Account → Nat
  | [] => 0
  | c :: cs => Account.nodes c + nodesList cs

end

mutual

/-- All accounts of the subtree rooted at an account, root first. -/
def Account.allNodes : Account → List Account
  | .mk n g t s cs => .mk n g t s cs :: allNodesList cs

/-- All accounts of a forest. -/
def allNodesList : List Account → List Account
  | [] => []
  | c :: cs => c.allNodes ++ allNodesList cs

end

theorem Account.nodes_eq (a : Account) : a.nodes = 1 + nodesList a.children := by
  cases a
  rfl

theorem Account.allNodes_eq (a : Account) : a.allNodes = a :: allNodesList a.children := by
  cases a
  rfl

theorem nodesList_append (l₁ l₂ : List Account) :
    nodesList (l₁ ++ l₂) = nodesList l₁ + nodesList l₂ := by
  induction l₁ with
  | nil => simp [nodesList]
  | cons c cs ih => simp [nodesList, ih]; omega

theorem allNodesList_append (l₁ l₂ : List Account) :
    allNodesList (l₁ ++ l₂) = allNodesList l₁ ++ allNodesList l₂ := by
  induction l₁ with
  | nil => simp [allNodesList]
  | cons c cs ih => simp [allNodesList, ih]

/--
Embedding of `Account.walk` (gnucashxml.py:176-190).  The Python
generator keeps a worklist `accounts`, pops the front, yields the
triple `(acc, list(acc.children), acc.splits)` and extends the
worklist with the (snapshot of the) children.  The generator is
embedded as the (finite) list of all triples it yields, computed from
the worklist.
-/
def walkQ : List Account → List (Account × List Account × List String)
  | [] => []
  | a :: rest =>
      (a, a.children, a.splits) :: walkQ (rest ++ a.children)
termination_by q => nodesList q
decreasing_by
  simp only [nodesList, nodesList_append, Account.nodes_eq]
  omega

theorem walkQ_nil : walkQ [] = [] := by
  rw [walkQ]

theorem walkQ_cons (a : Account) (rest : List Account) :
    walkQ (a :: rest) = (a, a.children, a.splits) :: walkQ (rest ++ a.children) := by
  rw [walkQ]

/-- The sequence of accounts yielded by the walk, in order. -/
def walkAccounts (q : List Account) : List Account :=
  (walkQ q).map Prod.fst

/-- Embedding of `Account.walk` called on a single root account. -/
def Account.walk (a : Account) : List (Account × List Account × List String) :=
  walkQ [a]

theorem walkAccounts_nil : walkAccounts [] = [] := by
  simp [walkAccounts, walkQ_nil]

theorem walkAccounts_cons (a : Account) (rest : List Account) :
    walkAccounts (a :: rest) = a :: walkAccounts (rest ++ a.children) := by
  simp [walkAccounts, walkQ_cons]

/-- Children of every member of the worklist, in worklist order. -/
def childrenFlat : List Account → List Account
  | [] => []
  | a :: rest => a.children ++ childrenFlat rest

theorem childrenFlat_append (l₁ l₂ : List Account) :
    childrenFlat (l₁ ++ l₂) = childrenFlat l₁ ++ childrenFlat l₂ := by
  induction l₁ with
  | nil => simp [childrenFlat]
  | cons a rest ih => simp [childrenFlat, ih]

/-- Processing a worklist prefix `q₁` yields `q₁` itself and queues its children. -/
theorem walkAccounts_shift (q₁ : List Account) :
    ∀ q₂, walkAccounts (q₁ ++ q₂) = q₁ ++ walkAccounts (q₂ ++ childrenFlat q₁) := by
  induction q₁ with
  | nil => intro q₂; simp [childrenFlat]
  | cons a rest ih =>
      intro q₂
      rw [List.cons_append, walkAccounts_cons, List.append_assoc, ih (q₂ ++ a.children)]
      simp [childrenFlat, List.append_assoc]

/-- One breadth-first layer: the walk yields the worklist, then the walk of its children. -/
theorem walkAccounts_layer (q : List Account) :
    walkAccounts q = q ++ walkAccounts (childrenFlat q) := by
  have h := walkAccounts_shift q []
  simpa using h

theorem mem_walkAccounts_of_mem {x : Account} {q : List Account} (h : x ∈ q) :
    x ∈ walkAccounts q := by
  rw [walkAccounts_layer]
  exact List.mem_append_left _ h

theorem nodesList_childrenFlat (q : List Account) :
    nodesList (childrenFlat q) + q.length = nodesList q := by
  induction q with
  | nil => simp [childrenFlat, nodesList]
  | cons a rest ih =>
      simp only [childrenFlat, nodesList, nodesList_append, List.length_cons,
        Account.nodes_eq]
      omega

theorem mem_allNodes_iff (a : Account) (x : Account) :
    x ∈ a.allNodes ↔ x = a ∨ x ∈ allNodesList a.children := by
  rw [Account.allNodes_eq]
  simp

theorem mem_allNodesList_iff (q : List Account) (x : Account) :
    x ∈ allNodesList q ↔ x ∈ q ∨ x ∈ allNodesList (childrenFlat q) := by
  induction q with
  | nil => simp [allNodesList, childrenFlat]
  | cons a rest ih =>
      simp only [allNodesList, childrenFlat, List.mem_append, mem_allNodes_iff,
        allNodesList_append, List.mem_cons, ih]
      tauto

/-- Peeling one breadth-first layer off the node list is a permutation. -/
theorem perm_layer (q : List Account) :
    (q ++ allNodesList (childrenFlat q)).Perm (allNodesList q) := by
  induction q with
  | nil => simp [childrenFlat, allNodesList]
  | cons a rest ih =>
      have h1 : (a :: rest) ++ allNodesList (childrenFlat (a :: rest))
          = a :: ((rest ++ allNodesList a.children) ++
              allNodesList (childrenFlat rest)) := by
        simp [childrenFlat, allNodesList_append, List.append_assoc]
      have h2 : allNodesList (a :: rest)
          = a :: (allNodesList a.children ++ allNodesList rest) := by
        simp [allNodesList, Account.allNodes_eq]
      rw [h1, h2]
      refine List.Perm.cons a ?_
      refine List.Perm.trans
        (List.Perm.append_right _
          (@List.perm_append_comm _ rest (allNodesList a.children))) ?_
      rw [List.append_assoc]
      exact List.Perm.append_left _ ih

/-- The worklist walk is a permutation of the forest's node list. -/
theorem walkAccounts_perm (n : ℕ) :
    ∀ q : List Account, nodesList q = n → (walkAccounts q).Perm (allNodesList q) := by
  induction n using Nat.strong_induction_on with
  | _ n ih =>
      intro q hq
      match q with
      | [] => simp [walkAccounts_nil, allNodesList]
      | a :: rest =>
          rw [walkAccounts_layer (a :: rest)]
          have hlt : nodesList (childrenFlat (a :: rest)) < n := by
            have := nodesList_childrenFlat (a :: rest)
            simp only [List.length_cons] at this
            omega
          have hperm := ih _ hlt (childrenFlat (a :: rest)) rfl
          exact ((List.Perm.append_left _ hperm).trans (perm_layer (a :: rest)))

theorem mem_childrenFlat {c a : Account} {q : List Account}
    (ha : a ∈ q) (hc : c ∈ a.children) : c ∈ childrenFlat q := by
  induction q with
  | nil => cases ha
  | cons b rest ih =>
      rcases List.mem_cons.mp ha with rfl | hmem
      · exact List.mem_append_left _ hc
      · exact List.mem_append_right _ (ih hmem)

/--
In the walk of a worklist, every account of the forest is yielded
before each of its children: the walk decomposes around any
(parent, child) pair, parent first.
-/
theorem walk_decomp (n : ℕ) :
    ∀ (q : List Account) (a c : Account), nodesList q = n →
      a ∈ allNodesList q → c ∈ a.children →
      ∃ l₁ l₂ l₃, walkAccounts q = l₁ ++ a :: (l₂ ++ c :: l₃) := by
  induction n using Nat.strong_induction_on with
  | _ n ih =>
      intro q a c hn ha hc
      rcases (mem_allNodesList_iff q a).mp ha with haq | hdeep
      · obtain ⟨l₁, l₂, rfl⟩ := List.append_of_mem haq
        have hcf : c ∈ childrenFlat (l₁ ++ a :: l₂) := mem_childrenFlat haq hc
        have hcw : c ∈ walkAccounts (childrenFlat (l₁ ++ a :: l₂)) :=
          mem_walkAccounts_of_mem hcf
        obtain ⟨m₁, m₂, hm⟩ := List.append_of_mem hcw
        refine ⟨l₁, l₂ ++ m₁, m₂, ?_⟩
        rw [walkAccounts_layer, hm]
        simp [List.append_assoc]
      · match q with
        | [] => simp [childrenFlat, allNodesList] at hdeep
        | b :: rest =>
            have hlt : nodesList (childrenFlat (b :: rest)) < n := by
              have := nodesList_childrenFlat (b :: rest)
              simp only [List.length_cons] at this
              omega
            obtain ⟨l₁, l₂, l₃, hdec⟩ :=
              ih _ hlt (childrenFlat (b :: rest)) a c rfl hdeep hc
            refine ⟨(b :: rest) ++ l₁, l₂, l₃, ?_⟩
            rw [walkAccounts_layer, hdec]
            simp [List.append_assoc]

end Walk

namespace Comm

/--
Embedding of the `Commodity` class (gnucashxml.py:127-142).  The
constructor stores `name`, `space` and `self.fraction = fraction or 100`
(so a missing or zero fraction becomes 100).  The extra field `oid`
models CPython object identity: every evaluation of the Python
expression `Commodity(...)` allocates a fresh object, so each embedded
constructor call is given a fresh allocation number.  Two references
are reference-identical exactly when their `oid`s agree.
-/
structure Commodity where
  name : String
  space : String
  fraction : Int
  oid : Nat
deriving DecidableEq, Repr

/-- The body of `Commodity.__init__`: `self.fraction = fraction or 100`. -/
def mkCommodity (name space : String) (fraction : Option Int) (oid : Nat) : Commodity :=
  { name := name
    space := space
    fraction := match fraction with
                | none => 100
                | some f => if f = 0 then 100 else f
    oid := oid }

/--
The mutable parse-local state of `_book_from_tree` that commodity
resolution touches: `commoditydict` (a dict keyed by the
`(space, name)` pair, gnucashxml.py:374) and the allocation counter
for object identity.  The dict is an association list whose `lookup`
finds the most recent binding, matching dict reads; bindings are only
added for keys not already present (via `setdefault`), or overwrite
older ones (top-level population), so shadowing agrees with dict
assignment.
-/
structure RegState where
  commoditydict : List ((String × String) × Commodity)
  nextOid : Nat
deriving DecidableEq, Repr

/--
Embedding of `_commodity_find` (gnucashxml.py:370-371):
`commoditydict.setdefault((space, name), Commodity(name=name, space=space))`.
If the pair is present the stored commodity is returned and the state
is unchanged; otherwise a fresh `Commodity` (with default fraction) is
created, registered under the pair, and returned.  (Python evaluates
the default argument eagerly even when the key is present, allocating
an object that is immediately discarded; the model numbers only
commodities that are registered, which preserves every identity fact
about reachable objects.)
-/
def commodity_find (st : RegState) (space name : String) : Commodity × RegState :=
  match st.commoditydict.lookup (space, name) with
  | some c => (c, st)
  | none =>
      let c := mkCommodity name space none st.nextOid
      (c, { commoditydict := ((space, name), c) :: st.commoditydict
            nextOid := st.nextOid + 1 })

/--
Embedding of the top-level commodity population loop
(gnucashxml.py:378-381): each `gnc:commodity` declaration is built by
`_commodity_from_tree` and assigned into `commoditydict` (plain dict
assignment, which overwrites an existing binding) as well as appended
to the `commodities` list.  A declaration is `(space, name, fraction?)`.
-/
def populateCommodities (st : RegState) (decls : List (String × String × Option Int)) :
    List Commodity × RegState :=
  match decls with
  | [] => ([], st)
  | (space, name, fr) :: rest =>
      let c := mkCommodity name space fr st.nextOid
      let st' : RegState :=
        { commoditydict := ((space, name), c) :: st.commoditydict
          nextOid := st.nextOid + 1 }
      let (cs, st'') := populateCommodities st' rest
      (c :: cs, st'')

/--
One commodity reference made by an entity builder during the builder
phase of `_book_from_tree`.  A `Price` resolves its two commodity
references through `_commodity_find` (gnucashxml.py:404-410,
get-or-create); an `Account` (gnucashxml.py:496) and a `Transaction`
(gnucashxml.py:524) resolve through a plain dict subscript
`commoditydict[(space, name)]`, which raises `KeyError` when absent.
-/
inductive CommodityRef where
  | priceRef (space name : String)
  | accountRef (space name : String)
  | trnRef (space name : String)
deriving DecidableEq, Repr

/-- The `(space, name)` pair a reference names. -/
def CommodityRef.pair : CommodityRef → String × String
  | .priceRef s n => (s, n)
  | .accountRef s n => (s, n)
  | .trnRef s n => (s, n)

/--
Resolving one commodity reference against the registry.  `none`
models the `KeyError` an absent pair raises under dict subscripting;
`_commodity_find` never fails.
-/
def resolveRef (st : RegState) : CommodityRef → Option (Commodity × RegState)
  | .priceRef space name => some (commodity_find st space name)
  | .accountRef space name =>
      (st.commoditydict.lookup (space, name)).map (fun c => (c, st))
  | .trnRef space name =>
      (st.commoditydict.lookup (space, name)).map (fun c => (c, st))

/-- Running a sequence of builder references; any `KeyError` aborts the parse. -/
def runRefs (st : RegState) : List CommodityRef → Option RegState
  | [] => some st
  | r :: rs =>
      match resolveRef st r with
      | none => none
      | some (_, st') => runRefs st' rs

/-- A successful resolution leaves the resolved commodity registered under its pair. -/
theorem resolveRef_lookup {st st' : RegState} {r : CommodityRef} {c : Commodity}
    (h : resolveRef st r = some (c, st')) :
    st'.commoditydict.lookup r.pair = some c := by
  cases r with
  | priceRef space name =>
      simp only [resolveRef, Option.some.injEq] at h
      rw [commodity_find] at h
      cases hl : st.commoditydict.lookup (space, name) with
      | some c₀ =>
          rw [hl] at h
          cases h
          simpa [CommodityRef.pair] using hl
      | none =>
          rw [hl] at h
          cases h
          simp [CommodityRef.pair, List.lookup]
  | accountRef space name =>
      simp only [resolveRef, Option.map_eq_some'] at h
      obtain ⟨c₀, hl, hc⟩ := h
      cases hc
      simpa [CommodityRef.pair] using hl
  | trnRef space name =>
      simp only [resolveRef, Option.map_eq_some'] at h
      obtain ⟨c₀, hl, hc⟩ := h
      cases hc
      simpa [CommodityRef.pair] using hl

/-- Resolution never disturbs an existing registry binding. -/
theorem resolveRef_mono {st st' : RegState} {r : CommodityRef} {c₀ : Commodity}
    {p : String × String} {c : Commodity}
    (hl : st.commoditydict.lookup p = some c)
    (h : resolveRef st r = some (c₀, st')) :
    st'.commoditydict.lookup p = some c := by
  cases r with
  | priceRef space name =>
      simp only [resolveRef, Option.some.injEq] at h
      rw [commodity_find] at h
      cases hfind : st.commoditydict.lookup (space, name) with
      | some cf =>
          rw [hfind] at h
          cases h
          exact hl
      | none =>
          rw [hfind] at h
          cases h
          by_cases hp : p = (space, name)
          · rw [hp] at hl
            rw [hl] at hfind
            cases hfind
          · have hb : (p == (space, name)) = false := beq_eq_false_iff_ne.mpr hp
            simpa [List.lookup, hb] using hl
  | accountRef space name =>
      simp only [resolveRef, Option.map_eq_some'] at h
      obtain ⟨cf, _, hc⟩ := h
      cases hc
      exact hl
  | trnRef space name =>
      simp only [resolveRef, Option.map_eq_some'] at h
      obtain ⟨cf, _, hc⟩ := h
      cases hc
      exact hl

/-- Running more references never disturbs an existing registry binding. -/
theorem runRefs_mono {p : String × String} {c : Commodity} :
    ∀ {st st' : RegState} {rs : List CommodityRef},
      st.commoditydict.lookup p = some c → runRefs st rs = some st' →
      st'.commoditydict.lookup p = some c := by
  intro st st' rs
  induction rs generalizing st with
  | nil =>
      intro hl h
      simp only [runRefs, Option.some.injEq] at h
      cases h
      exact hl
  | cons r rs ih =>
      intro hl h
      simp only [runRefs] at h
      cases hres : resolveRef st r with
      | none => rw [hres] at h; cases h
      | some cst =>
          rw [hres] at h
          exact ih (resolveRef_mono hl hres) h

end Comm

namespace Link

/--
The pass-1 record for one account (gnucashxml.py:430-435):
`_account_from_tree` returns `(parent_guid, acc)`; the loop stores
`accountdict[acc.guid] = acc` and `parentdict[acc.guid] = parent_guid`.
Only the fields pass 2 reads are kept: the guid, the type tag, and the
recorded parent guid (`None` exactly for `ROOT` accounts,
gnucashxml.py:485-490).
-/
structure AccountRec where
  guid : String
  actype : String
  parentGuid : Option String
deriving DecidableEq, Repr

/--
The mutable attributes pass 2 writes, keyed by account guid: each
`Account` object's `parent` (initially `None`, gnucashxml.py:156) and
`children` (initially `[]`, gnucashxml.py:157).  Association lists
with most-recent-binding lookup; an absent binding is the initial
attribute value.
-/
structure LinkState where
  parents : List (String × String)
  children : List (String × List String)
deriving DecidableEq, Repr

/-- The `parent` attribute of the account with the given guid. -/
def LinkState.parentOf (st : LinkState) (g : String) : Option String :=
  st.parents.lookup g

/-- The `children` attribute of the account with the given guid. -/
def LinkState.childrenOf (st : LinkState) (g : String) : List String :=
  (st.children.lookup g).getD []

/-- `acc.parent = parent` for the account with guid `g`. -/
def LinkState.setParent (st : LinkState) (g p : String) : LinkState :=
  { st with parents := (g, p) :: st.parents }

/-- `parent.children.append(acc)` for the parent with guid `p`. -/
def LinkState.appendChild (st : LinkState) (p c : String) : LinkState :=
  { st with children := (p, st.childrenOf p ++ [c]) :: st.children }

/-- The state before pass 2: every `parent` is `None`, every `children` is `[]`. -/
def initState : LinkState := ⟨[], []⟩

/--
Embedding of pass 2 of `_book_from_tree` (gnucashxml.py:436-441):

    for acc in list(accountdict.values()):
        if acc.parent is None and acc.actype != 'ROOT':
            parent = accountdict[parentdict[acc.guid]]
            acc.parent = parent
            parent.children.append(acc)
            accounts.append(acc)

`ag` is the key set of `accountdict`; a failing subscript
(`parentdict[acc.guid]` being `None`, or a parent guid absent from
`accountdict`) raises `KeyError` and aborts the parse (`none`).
-/
def pass2 (ag : List String) : LinkState → List AccountRec → Option LinkState
  | st, [] => some st
  | st, r :: rest =>
      if st.parentOf r.guid = none ∧ r.actype ≠ "ROOT" then
        match r.parentGuid with
        | none => none
        | some pg =>
            if pg ∈ ag then
              pass2 ag ((st.setParent r.guid pg).appendChild pg r.guid) rest
            else none
      else pass2 ag st rest

theorem parentOf_setParent_self (st : LinkState) (g p : String) :
    (st.setParent g p).parentOf g = some p := by
  simp [LinkState.setParent, LinkState.parentOf, List.lookup]

theorem parentOf_setParent_other (st : LinkState) {g g' : String} (p : String)
    (h : g' ≠ g) : (st.setParent g p).parentOf g' = st.parentOf g' := by
  have hb : (g' == g) = false := beq_eq_false_iff_ne.mpr h
  simp [LinkState.setParent, LinkState.parentOf, List.lookup, hb]

theorem parentOf_appendChild (st : LinkState) (p c g : String) :
    (st.appendChild p c).parentOf g = st.parentOf g := rfl

theorem childrenOf_setParent (st : LinkState) (g p g' : String) :
    (st.setParent g p).childrenOf g' = st.childrenOf g' := rfl

theorem childrenOf_appendChild_self (st : LinkState) (p c : String) :
    (st.appendChild p c).childrenOf p = st.childrenOf p ++ [c] := by
  simp [LinkState.appendChild, LinkState.childrenOf, List.lookup]

theorem childrenOf_appendChild_other (st : LinkState) {p g : String} (c : String)
    (h : g ≠ p) : (st.appendChild p c).childrenOf g = st.childrenOf g := by
  have hb : (g == p) = false := beq_eq_false_iff_ne.mpr h
  simp [LinkState.appendChild, LinkState.childrenOf, List.lookup, hb]

/--
Invariant-carrying specification of pass 2, proved by induction over
the remaining records with the state generalized.  Starting from a
state in which none of the remaining accounts has a parent assigned
and none occurs in any children list, a successful pass assigns each
non-ROOT account exactly its recorded parent guid, puts it exactly
once into that parent's children list and nowhere else, resolves that
guid in `accountdict`, and leaves ROOT accounts (and all accounts not
in the list) untouched.
-/
theorem pass2_spec (ag : List String) :
    ∀ (recs : List AccountRec) (st₀ st : LinkState),
      pass2 ag st₀ recs = some st →
      (recs.map AccountRec.guid).Nodup →
      (∀ r ∈ recs, st₀.parentOf r.guid = none) →
      (∀ r ∈ recs, ∀ g, (st₀.childrenOf g).count r.guid = 0) →
      (∀ r ∈ recs, r.actype ≠ "ROOT" →
        ∀ pg, r.parentGuid = some pg →
          pg ∈ ag ∧
          st.parentOf r.guid = some pg ∧
          (st.childrenOf pg).count r.guid = 1 ∧
          ∀ g, g ≠ pg → (st.childrenOf g).count r.guid = 0) ∧
      (∀ r ∈ recs, r.actype = "ROOT" → st.parentOf r.guid = none) ∧
      (∀ g, g ∉ recs.map AccountRec.guid → st.parentOf g = st₀.parentOf g) ∧
      (∀ x, x ∉ recs.map AccountRec.guid →
        ∀ g, (st.childrenOf g).count x = (st₀.childrenOf g).count x) := by
  intro recs
  induction recs with
  | nil =>
      intro st₀ st h _ _ _
      simp only [pass2, Option.some.injEq] at h
      cases h
      exact ⟨by simp, by simp, fun g _ => rfl, fun x _ g => rfl⟩
  | cons r rest ih =>
      intro st₀ st h hnd hpar hcnt
      have hndrest : (rest.map AccountRec.guid).Nodup := (List.nodup_cons.mp hnd).2
      have hgr : r.guid ∉ rest.map AccountRec.guid := (List.nodup_cons.mp hnd).1
      have hp0 : st₀.parentOf r.guid = none := hpar r (List.mem_cons_self r rest)
      by_cases hroot : r.actype = "ROOT"
      · -- guard is false: the record is skipped
        have hguard : ¬ (st₀.parentOf r.guid = none ∧ r.actype ≠ "ROOT") := by
          simp [hroot]
        rw [pass2, if_neg hguard] at h
        obtain ⟨hmain, hro, hfrp, hfrc⟩ := ih st₀ st h hndrest
          (fun r' hr' => hpar r' (List.mem_cons_of_mem r hr'))
          (fun r' hr' g => hcnt r' (List.mem_cons_of_mem r hr') g)
        refine ⟨?_, ?_, ?_, ?_⟩
        · intro r' hr' hna pg hpg
          rcases List.mem_cons.mp hr' with rfl | hmem
          · exact absurd hroot hna
          · exact hmain r' hmem hna pg hpg
        · intro r' hr' hna
          rcases List.mem_cons.mp hr' with rfl | hmem
          · rw [hfrp r'.guid hgr]
            exact hp0
          · exact hro r' hmem hna
        · intro g hg
          exact hfrp g (fun hmem => hg (List.mem_cons_of_mem _ hmem))
        · intro x hx g
          exact hfrc x (fun hmem => hx (List.mem_cons_of_mem _ hmem)) g
      · -- guard is true: the record is linked
        have hguard : st₀.parentOf r.guid = none ∧ r.actype ≠ "ROOT" := ⟨hp0, hroot⟩
        rw [pass2, if_pos hguard] at h
        cases hpg0 : r.parentGuid with
        | none =>
            simp only [hpg0] at h
            cases h
        | some pg =>
            simp only [hpg0] at h
            by_cases hmem : pg ∈ ag
            · rw [if_pos hmem] at h
              set st₁ := (st₀.setParent r.guid pg).appendChild pg r.guid with hst₁
              have hpar₁ : ∀ r' ∈ rest, st₁.parentOf r'.guid = none := by
                intro r' hr'
                have hne : r'.guid ≠ r.guid := by
                  intro he
                  exact hgr (he ▸ List.mem_map_of_mem AccountRec.guid hr')
                rw [hst₁, parentOf_appendChild, parentOf_setParent_other _ _ hne]
                exact hpar r' (List.mem_cons_of_mem r hr')
              have hcnt₁ : ∀ r' ∈ rest, ∀ g, (st₁.childrenOf g).count r'.guid = 0 := by
                intro r' hr' g
                have hne : r.guid ≠ r'.guid := by
                  intro he
                  exact hgr (he ▸ List.mem_map_of_mem AccountRec.guid hr')
                have h0 : (st₀.childrenOf g).count r'.guid = 0 :=
                  hcnt r' (List.mem_cons_of_mem r hr') g
                by_cases hgp : g = pg
                · subst hgp
                  rw [hst₁, childrenOf_appendChild_self, childrenOf_setParent,
                    List.count_append]
                  simp [h0, List.count_singleton, hne]
                · rw [hst₁, childrenOf_appendChild_other _ _ hgp, childrenOf_setParent]
                  exact h0
              obtain ⟨hmain, hro, hfrp, hfrc⟩ := ih st₁ st h hndrest hpar₁ hcnt₁
              refine ⟨?_, ?_, ?_, ?_⟩
              · intro r' hr' hna pg' hpg'
                rcases List.mem_cons.mp hr' with rfl | hmemr
                · rw [hpg0] at hpg'
                  cases hpg'
                  refine ⟨hmem, ?_, ?_, ?_⟩
                  · rw [hfrp r'.guid hgr, hst₁, parentOf_appendChild,
                      parentOf_setParent_self]
                  · rw [hfrc r'.guid hgr pg, hst₁, childrenOf_appendChild_self,
                      childrenOf_setParent, List.count_append]
                    have h0 : (st₀.childrenOf pg).count r'.guid = 0 :=
                      hcnt r' (List.mem_cons_self r' rest) pg
                    simp [h0, List.count_singleton]
                  · intro g hgne
                    rw [hfrc r'.guid hgr g, hst₁,
                      childrenOf_appendChild_other _ _ hgne, childrenOf_setParent]
                    exact hcnt r' (List.mem_cons_self r' rest) g
                · exact hmain r' hmemr hna pg' hpg'
              · intro r' hr' hna
                rcases List.mem_cons.mp hr' with rfl | hmemr
                · exact absurd hna hroot
                · exact hro r' hmemr hna
              · intro g hg
                have hgner : g ≠ r.guid := by
                  intro he
                  exact hg (he ▸ List.mem_cons_self _ _)
                rw [hfrp g (fun hmemg => hg (List.mem_cons_of_mem _ hmemg)), hst₁,
                  parentOf_appendChild, parentOf_setParent_other _ _ hgner]
              · intro x hx g
                have hxner : x ≠ r.guid := by
                  intro he
                  exact hx (he ▸ List.mem_cons_self _ _)
                rw [hfrc x (fun hmemx => hx (List.mem_cons_of_mem _ hmemx)) g]
                by_cases hgp : g = pg
                · subst hgp
                  rw [hst₁, childrenOf_appendChild_self, childrenOf_setParent,
                    List.count_append]
                  simp [List.count_singleton, hxner]
                · rw [hst₁, childrenOf_appendChild_other _ _ hgp, childrenOf_setParent]
            · rw [if_neg hmem] at h
              cases h

end Link

/--
The Python exceptions the embedded fragments can raise.  `valueError`
covers both the explicit `raise ValueError(...)` in `parse` and the
unpacking error of `num, denum = numstring.split("/")`;
`invalidOperation` and `divisionByZero` are the `decimal` module
signals (trapped, hence raised, under the default context);
`runtimeError` is the `raise RuntimeError("Unknown slot type ...")` of
`_slots_from_tree` (the spec's `UnsupportedSchemaError`), carrying the
offending type tag.
-/
inductive PyErr where
  | valueError
  | invalidOperation
  | divisionByZero
  | typeError
  | attributeError
  | keyError
  | runtimeError (slotType : String)
deriving DecidableEq, Repr

namespace Num

/-- The ASCII whitespace characters accepted around a Decimal numeric string. -/
def wsChars : List Char := [' ', '\t', '\n', '\r', '\x0b', '\x0c']

/-- ASCII whitespace accepted around a Decimal numeric string. -/
def pyWs (c : Char) : Bool := wsChars.contains c

/-- Strip leading and trailing whitespace from a character list. -/
def stripEnds (cs : List Char) : List Char :=
  ((cs.dropWhile pyWs).reverse.dropWhile pyWs).reverse

def upperChars : List Char := "ABCDEFGHIJKLMNOPQRSTUVWXYZ".toList

def lowerChars : List Char := "abcdefghijklmnopqrstuvwxyz".toList

/-- ASCII lowercasing, for the case-insensitive Decimal grammar. -/
def asciiLower (c : Char) : Char :=
  ((upperChars.zip lowerChars).lookup c).getD c

/-- Value of a (nonempty) string of decimal digits. -/
def digitsToNat (ds : List Char) : Nat :=
  ds.foldl (fun acc c => 10 * acc + (c.toNat - 48)) 0

/-- Consume an optional leading sign; `true` means negative. -/
def parseSign : List Char → Bool × List Char
  | '-' :: rest => (true, rest)
  | '+' :: rest => (false, rest)
  | cs => (false, cs)

/-- Exponent tail of a numeric string: `[-+]?\d+`, consuming everything. -/
def parseExpTail (cs : List Char) : Option Int :=
  let (eneg, cs') := parseSign cs
  if (!cs'.isEmpty) && cs'.all Char.isDigit then
    some (if eneg then -(digitsToNat cs' : Int) else (digitsToNat cs' : Int))
  else none

/--
The finite-number alternative of the Decimal numeric-string grammar
(`(?=\d|\.\d)\d*(\.\d*)?([eE][-+]?\d+)?`, case already lowered):
returns the coefficient (the concatenated digits) and the adjusted
exponent (written exponent minus the number of fractional digits).
-/
def parseFin (cs : List Char) : Option (Nat × Int) :=
  let ip := cs.takeWhile Char.isDigit
  let r1 := cs.drop ip.length
  match r1 with
  | [] => if ip.isEmpty then none else some (digitsToNat ip, 0)
  | '.' :: r2 =>
      let fp := r2.takeWhile Char.isDigit
      let r3 := r2.drop fp.length
      if ip.isEmpty && fp.isEmpty then none
      else
        match r3 with
        | [] => some (digitsToNat (ip ++ fp), -(fp.length : Int))
        | 'e' :: r4 =>
            (parseExpTail r4).map (fun ex => (digitsToNat (ip ++ fp), ex - fp.length))
        | _ => none
  | 'e' :: r4 =>
      if ip.isEmpty then none
      else (parseExpTail r4).map (fun ex => (digitsToNat ip, ex))
  | _ => none

/--
Syntactic form of a parsed Decimal: a finite number is kept as its
signed coefficient and exponent (exactly the data a Python `Decimal`
stores); the sign of infinities is kept, NaN payloads are dropped.
-/
inductive PreDec where
  | fin (c : Int) (e : Int)
  | inf (neg : Bool)
  | qnan
  | snan
deriving DecidableEq, Repr

/-- Special-value alternatives: `Inf(inity)?`, `NaN\d*`, `sNaN\d*` (already lowered). -/
def parseSpecial (neg : Bool) (cs : List Char) : Option PreDec :=
  if cs = "inf".toList ∨ cs = "infinity".toList then some (.inf neg)
  else if cs.take 3 = "nan".toList ∧ (cs.drop 3).all Char.isDigit then some .qnan
  else if cs.take 4 = "snan".toList ∧ (cs.drop 4).all Char.isDigit then some .snan
  else none

/--
Embedding of the `decimal.Decimal` string constructor used by
`_parse_number` (gnucashxml.py:630): leading/trailing whitespace and
underscores are removed, then the numeric-string grammar is matched
case-insensitively.  `none` models the `InvalidOperation` a malformed
string raises.
-/
def parseDecString (s : String) : Option PreDec :=
  let cs := ((stripEnds s.toList).filter (fun c => c != '_')).map asciiLower
  let (neg, cs') := parseSign cs
  match parseFin cs' with
  | some (c, e) => some (.fin (if neg then -(c : Int) else (c : Int)) e)
  | none => parseSpecial neg cs'

/-- Multiplication by an integer power of ten, kept executable on `ℚ`. -/
def mulPow10 (q : ℚ) (s : Int) : ℚ :=
  if 0 ≤ s then q * (10 : ℚ) ^ s.toNat else q / (10 : ℚ) ^ (-s).toNat

/--
The value of a Python `Decimal`, abstracted to its numerical content:
a finite decimal is the rational it denotes (the sign of a zero is not
tracked), infinities keep their sign, and NaNs are collapsed to a
quiet/signaling pair.
-/
inductive Dec where
  | fin (q : ℚ)
  | inf (neg : Bool)
  | qnan
  | snan
deriving DecidableEq

/-- The value denoted by a parsed Decimal. -/
def PreDec.toDec : PreDec → Dec
  | .fin c e => .fin (mulPow10 (c : ℚ) e)
  | .inf n => .inf n
  | .qnan => .qnan
  | .snan => .snan

/-- Digit count of a natural number, by fuel-based repeated division. -/
def dlenF : Nat → Nat → Nat
  | 0, _ => 1
  | fuel + 1, n => if n < 10 then 1 else dlenF fuel (n / 10) + 1

/-- Number of decimal digits of `n` (1 for `n = 0`). -/
def dlen (n : Nat) : Nat := dlenF n n

/-- For `q ≠ 0`, the unique `e` with `10 ^ (e - 1) ≤ |q| < 10 ^ e` (the
adjusted exponent plus one, in Decimal terms). -/
def decExp (q : ℚ) : Int :=
  if q.den * 10 ^ dlen q.num.natAbs ≤ q.num.natAbs * 10 ^ dlen q.den then
    ((dlen q.num.natAbs : Int) - (dlen q.den : Int)) + 1
  else (dlen q.num.natAbs : Int) - (dlen q.den : Int)

/-- Round a rational to the nearest integer, ties to the even neighbour
(`ROUND_HALF_EVEN`, the default Decimal context rounding). -/
def roundHalfEven (x : ℚ) : Int :=
  let f := ⌊x⌋
  if x - f < 1 / 2 then f
  else if (1 : ℚ) / 2 < x - f then f + 1
  else if f % 2 = 0 then f else f + 1

/-- Correctly round a nonzero rational to `p` significant decimal digits,
half-even; `0` stays `0`.  This is the value computed by General
Decimal Arithmetic division at context precision `p`. -/
def roundSig (p : Nat) (q : ℚ) : ℚ :=
  if q = 0 then 0
  else mulPow10 ((roundHalfEven (mulPow10 q ((p : Int) - decExp q)) : ℤ) : ℚ) (decExp q - p)

/--
Embedding of `Decimal.__truediv__` under the default context
(precision 28, `ROUND_HALF_EVEN`, with `DivisionByZero` and
`InvalidOperation` trapped): signaling NaNs and `Inf/Inf` signal
`InvalidOperation`, quiet NaNs propagate, division by a zero signals
`DivisionByZero` (`InvalidOperation` for `0/0`), and a finite quotient
is correctly rounded to 28 significant digits.
-/
def decDiv : Dec → Dec → Except PyErr Dec
  | .snan, _ => .error .invalidOperation
  | _, .snan => .error .invalidOperation
  | .qnan, _ => .ok .qnan
  | _, .qnan => .ok .qnan
  | .inf _, .inf _ => .error .invalidOperation
  | .inf n, .fin b => .ok (.inf (xor n (b < 0)))
  | .fin _, .inf _ => .ok (.fin 0)
  | .fin a, .fin b =>
      if b = 0 then
        if a = 0 then .error .invalidOperation else .error .divisionByZero
      else .ok (.fin (roundSig 28 (a / b)))

/-- Python `str.split` for a one-character separator, on character lists. -/
def splitChar (sep : Char) : List Char → List (List Char)
  | [] => [[]]
  | c :: rest =>
      let r := splitChar sep rest
      if c = sep then [] :: r
      else
        match r with
        | [] => [[c]]
        | h :: t => (c :: h) :: t

/-- Python `s.split(sep)` for the one-character separator `_parse_number` uses. -/
def pySplit (s : String) (sep : Char) : List String :=
  (splitChar sep s.toList).map (fun cs => String.mk cs)

/--
Embedding of `_parse_number` (gnucashxml.py:628-630):

    num, denum = numstring.split("/")
    return decimal.Decimal(num) / decimal.Decimal(denum)

Unpacking anything but a two-element split raises `ValueError`; a
malformed numeric string raises `InvalidOperation` from the `Decimal`
constructor; the division itself can signal as in `decDiv`.
-/
def _parse_number (numstring : String) : Except PyErr Dec :=
  match pySplit numstring '/' with
  | [num, denum] =>
      match parseDecString num with
      | none => .error .invalidOperation
      | some a =>
          match parseDecString denum with
          | none => .error .invalidOperation
          | some b => decDiv a.toDec b.toDec
  | _ => .error .valueError

/-- The value of a nonempty all-digit character list, `none` otherwise. -/
def digitsVal? (ds : List Char) : Option Nat :=
  if (!ds.isEmpty) && ds.all Char.isDigit then some (digitsToNat ds) else none

/-- A decimal integer literal in the sense of the specification:
an optional sign followed by one or more digits. -/
def intLit? (s : String) : Option Int :=
  match s.toList with
  | '-' :: ds => (digitsVal? ds).map (fun v => -(Int.ofNat v))
  | '+' :: ds => (digitsVal? ds).map (fun v => Int.ofNat v)
  | ds => (digitsVal? ds).map (fun v => Int.ofNat v)

theorem mulPow10_eq (q : ℚ) (s : Int) : mulPow10 q s = q * (10 : ℚ) ^ s := by
  rw [mulPow10]
  by_cases h : 0 ≤ s
  · rw [if_pos h, ← zpow_natCast (10 : ℚ), Int.toNat_of_nonneg h]
  · rw [if_neg h, ← zpow_natCast (10 : ℚ), Int.toNat_of_nonneg (by omega : (0 : ℤ) ≤ -s),
      div_eq_mul_inv, ← zpow_neg, neg_neg]

theorem dlenF_pos (fuel n : Nat) : 1 ≤ dlenF fuel n := by
  cases fuel with
  | zero => simp [dlenF]
  | succ fuel =>
      rw [dlenF]
      by_cases h : n < 10
      · rw [if_pos h]
      · rw [if_neg h]
        omega

theorem dlenF_spec : ∀ (fuel n : Nat), 1 ≤ n → n ≤ fuel →
    10 ^ (dlenF fuel n - 1) ≤ n ∧ n < 10 ^ dlenF fuel n := by
  intro fuel
  induction fuel with
  | zero => intro n h1 h2; omega
  | succ fuel ih =>
      intro n h1 h2
      rw [dlenF]
      by_cases h10 : n < 10
      · rw [if_pos h10]
        simpa using ⟨h1, h10⟩
      · rw [if_neg h10]
        have hq1 : 1 ≤ n / 10 := (Nat.one_le_div_iff (by norm_num)).mpr (by omega)
        have hqf : n / 10 ≤ fuel := by
          have := Nat.div_lt_self (by omega : 0 < n) (by norm_num : 1 < 10)
          omega
        obtain ⟨hlo, hhi⟩ := ih (n / 10) hq1 hqf
        have hk1 : 1 ≤ dlenF fuel (n / 10) := dlenF_pos _ _
        constructor
        · have h' : 10 ^ (dlenF fuel (n / 10) - 1) * 10 ≤ n :=
            (Nat.le_div_iff_mul_le (by norm_num)).mp hlo
          have he : 10 ^ (dlenF fuel (n / 10) - 1) * 10 = 10 ^ dlenF fuel (n / 10) := by
            rw [← pow_succ]
            congr 1
            omega
          rw [he] at h'
          simpa using h'
        · have h' : n < 10 ^ dlenF fuel (n / 10) * 10 :=
            (Nat.div_lt_iff_lt_mul (by norm_num)).mp hhi
          rw [← pow_succ] at h'
          exact h'

theorem dlen_spec (n : Nat) (h : 1 ≤ n) :
    10 ^ (dlen n - 1) ≤ n ∧ n < 10 ^ dlen n :=
  dlenF_spec n n h le_rfl

theorem dlen_pos (n : Nat) : 1 ≤ dlen n := dlenF_pos n n

theorem zpow_natSub_le_div_iff (x y n d : ℕ) (hn : 0 < n) (hd : 0 < d) :
    (10 : ℚ) ^ ((x : ℤ) - y) ≤ (n : ℚ) / d ↔ d * 10 ^ x ≤ n * 10 ^ y := by
  rw [zpow_sub₀ (by norm_num : (10 : ℚ) ≠ 0),
    div_le_div_iff (by positivity) (by exact_mod_cast hd), zpow_natCast, zpow_natCast]
  constructor
  · intro h
    have h' : (10 : ℚ) ^ x * d ≤ n * 10 ^ y := h
    have : ((d * 10 ^ x : ℕ) : ℚ) ≤ ((n * 10 ^ y : ℕ) : ℚ) := by
      push_cast
      linarith
    exact_mod_cast this
  · intro h
    have : ((d * 10 ^ x : ℕ) : ℚ) ≤ ((n * 10 ^ y : ℕ) : ℚ) := by exact_mod_cast h
    push_cast at this
    linarith

theorem div_lt_zpow_natSub_iff (x y n d : ℕ) (hn : 0 < n) (hd : 0 < d) :
    (n : ℚ) / d < (10 : ℚ) ^ ((x : ℤ) - y) ↔ n * 10 ^ y < d * 10 ^ x := by
  rw [zpow_sub₀ (by norm_num : (10 : ℚ) ≠ 0),
    div_lt_div_iff (by exact_mod_cast hd) (by positivity), zpow_natCast, zpow_natCast]
  constructor
  · intro h
    have h' : (n : ℚ) * 10 ^ y < 10 ^ x * d := h
    have : ((n * 10 ^ y : ℕ) : ℚ) < ((d * 10 ^ x : ℕ) : ℚ) := by
      push_cast
      linarith
    exact_mod_cast this
  · intro h
    have : ((n * 10 ^ y : ℕ) : ℚ) < ((d * 10 ^ x : ℕ) : ℚ) := by exact_mod_cast h
    push_cast at this
    linarith

theorem abs_eq_natAbs_div_den (q : ℚ) :
    |q| = (q.num.natAbs : ℚ) / (q.den : ℚ) := by
  conv_lhs => rw [← Rat.num_div_den q]
  rw [abs_div, Int.cast_natAbs, Int.cast_abs,
    abs_of_pos (by exact_mod_cast q.pos : (0 : ℚ) < (q.den : ℚ))]

/-- `decExp` brackets the magnitude of a nonzero rational. -/
theorem decExp_spec (q : ℚ) (hq : q ≠ 0) :
    (10 : ℚ) ^ (decExp q - 1) ≤ |q| ∧ |q| < (10 : ℚ) ^ decExp q := by
  have hnum : q.num ≠ 0 := Rat.num_ne_zero.mpr hq
  have hn : 1 ≤ q.num.natAbs := by
    have := Int.natAbs_pos.mpr hnum
    omega
  have hd : 1 ≤ q.den := q.pos
  obtain ⟨hnlo, hnhi⟩ := dlen_spec q.num.natAbs hn
  obtain ⟨hdlo, hdhi⟩ := dlen_spec q.den hd
  have habs := abs_eq_natAbs_div_den q
  by_cases T : q.den * 10 ^ dlen q.num.natAbs ≤ q.num.natAbs * 10 ^ dlen q.den
  · have hE : decExp q = ((dlen q.num.natAbs : Int) - (dlen q.den : Int)) + 1 := by
      rw [decExp, if_pos T]
    rw [hE]
    constructor
    · have he : (dlen q.num.natAbs : ℤ) - (dlen q.den : ℤ) + 1 - 1
          = ((dlen q.num.natAbs : ℕ) : ℤ) - ((dlen q.den : ℕ) : ℤ) := by ring
      rw [he, habs]
      exact (zpow_natSub_le_div_iff _ _ _ _ (by omega) (by omega)).mpr T
    · rw [habs]
      have he : (dlen q.num.natAbs : ℤ) - (dlen q.den : ℤ) + 1
          = ((dlen q.num.natAbs + 1 : ℕ) : ℤ) - ((dlen q.den : ℕ) : ℤ) := by
        push_cast
        ring
      rw [he]
      refine (div_lt_zpow_natSub_iff _ _ _ _ (by omega) (by omega)).mpr ?_
      calc q.num.natAbs * 10 ^ dlen q.den
          < 10 ^ dlen q.num.natAbs * 10 ^ dlen q.den :=
            mul_lt_mul_of_pos_right hnhi (by positivity)
        _ = 10 ^ (dlen q.den - 1) * 10 ^ (dlen q.num.natAbs + 1) := by
            rw [← pow_add, ← pow_add]
            congr 1
            have := dlen_pos q.den
            omega
        _ ≤ q.den * 10 ^ (dlen q.num.natAbs + 1) := mul_le_mul_right' hdlo _
  · have hE : decExp q = (dlen q.num.natAbs : Int) - (dlen q.den : Int) := by
      rw [decExp, if_neg T]
    rw [hE]
    push_neg at T
    constructor
    · have he : (dlen q.num.natAbs : ℤ) - (dlen q.den : ℤ) - 1
          = ((dlen q.num.natAbs - 1 : ℕ) : ℤ) - ((dlen q.den : ℕ) : ℤ) := by
        have := dlen_pos q.num.natAbs
        push_cast [this]
        omega
      rw [habs, he]
      refine (zpow_natSub_le_div_iff _ _ _ _ (by omega) (by omega)).mpr ?_
      calc q.den * 10 ^ (dlen q.num.natAbs - 1)
          ≤ 10 ^ dlen q.den * 10 ^ (dlen q.num.natAbs - 1) :=
            mul_le_mul_right' (le_of_lt hdhi) _
        _ = 10 ^ (dlen q.num.natAbs - 1) * 10 ^ dlen q.den := by ring
        _ ≤ q.num.natAbs * 10 ^ dlen q.den := mul_le_mul_right' hnlo _
    · rw [habs]
      exact (div_lt_zpow_natSub_iff _ _ _ _ (by omega) (by omega)).mpr T

/-- The bracketing property determines `decExp` uniquely. -/
theorem decExp_unique (q : ℚ) (e : ℤ) (hq : q ≠ 0)
    (hlo : (10 : ℚ) ^ (e - 1) ≤ |q|) (hhi : |q| < (10 : ℚ) ^ e) :
    decExp q = e := by
  obtain ⟨hlo', hhi'⟩ := decExp_spec q hq
  have h1 : (10 : ℚ) ^ (decExp q - 1) < (10 : ℚ) ^ e := lt_of_le_of_lt hlo' hhi
  have h2 : (10 : ℚ) ^ (e - 1) < (10 : ℚ) ^ decExp q := lt_of_le_of_lt hlo hhi'
  have h1' := (zpow_lt_zpow_iff_right₀ (by norm_num : (1 : ℚ) < 10)).mp h1
  have h2' := (zpow_lt_zpow_iff_right₀ (by norm_num : (1 : ℚ) < 10)).mp h2
  omega

theorem roundHalfEven_intCast (k : ℤ) : roundHalfEven (k : ℚ) = k := by
  rw [roundHalfEven]
  simp only [Int.floor_intCast, sub_self]
  norm_num

/--
Rounding to `p` significant digits is the identity on any rational
already representable with a coefficient of fewer than `p + 1` digits:
the exact-quotient case of Decimal division.
-/
theorem roundSig_exact (p : Nat) (q : ℚ) (c e : ℤ)
    (hq : q = (c : ℚ) * (10 : ℚ) ^ e) (hc : c.natAbs < 10 ^ p) :
    roundSig p q = q := by
  by_cases hq0 : q = 0
  · rw [roundSig, if_pos hq0, hq0]
  · rw [roundSig, if_neg hq0]
    set E := decExp q with hEdef
    have hc0 : c ≠ 0 := by
      rintro rfl
      simp at hq
      exact hq0 hq
    have habs : |q| = (c.natAbs : ℚ) * (10 : ℚ) ^ e := by
      rw [hq, abs_mul, abs_of_pos (show (0 : ℚ) < (10 : ℚ) ^ e by positivity),
        Int.cast_natAbs, Int.cast_abs]
    have hup : |q| < (10 : ℚ) ^ ((p : ℤ) + e) := by
      rw [habs, zpow_add₀ (by norm_num : (10 : ℚ) ≠ 0)]
      refine mul_lt_mul_of_pos_right ?_ (by positivity)
      rw [zpow_natCast]
      exact_mod_cast hc
    have hEle : E ≤ (p : ℤ) + e := by
      have h1 : (10 : ℚ) ^ (E - 1) < (10 : ℚ) ^ ((p : ℤ) + e) :=
        lt_of_le_of_lt (hEdef ▸ (decExp_spec q hq0).1) hup
      have := (zpow_lt_zpow_iff_right₀ (by norm_num : (1 : ℚ) < 10)).mp h1
      omega
    have hx : mulPow10 q ((p : ℤ) - E)
        = ((c * 10 ^ (e - (E - p)).toNat : ℤ) : ℚ) := by
      rw [mulPow10_eq]
      push_cast
      conv_lhs => rw [hq]
      rw [mul_assoc, ← zpow_natCast (10 : ℚ) (e - (E - p)).toNat,
        Int.toNat_of_nonneg (by omega), ← zpow_add₀ (by norm_num : (10 : ℚ) ≠ 0)]
      congr 2
      omega
    rw [hx, roundHalfEven_intCast, mulPow10_eq]
    push_cast
    rw [mul_assoc, ← zpow_natCast (10 : ℚ) (e - (E - p)).toNat,
      Int.toNat_of_nonneg (by omega), ← zpow_add₀ (by norm_num : (10 : ℚ) ≠ 0), hq]
    congr 2
    omega

theorem dropWhile_eq_self_of {p : Char → Bool} {l : List Char}
    (h : ∀ c ∈ l, p c = false) : l.dropWhile p = l := by
  cases l with
  | nil => rfl
  | cons a l => simp [List.dropWhile, h a (List.mem_cons_self a l)]

theorem stripEnds_eq_self {l : List Char} (h : ∀ c ∈ l, pyWs c = false) :
    stripEnds l = l := by
  rw [stripEnds, dropWhile_eq_self_of h, dropWhile_eq_self_of (by simpa using h),
    List.reverse_reverse]

theorem map_eq_self_of {f : Char → Char} {l : List Char}
    (h : ∀ c ∈ l, f c = c) : l.map f = l := by
  induction l with
  | nil => rfl
  | cons a l ih =>
      rw [List.map_cons, h a (List.mem_cons_self a l),
        ih (fun c hc => h c (List.mem_cons_of_mem a hc))]

theorem lookup_zip_eq_none {c : Char} :
    ∀ (ks vs : List Char), (∀ k ∈ ks, c ≠ k) → ((ks.zip vs).lookup c) = none := by
  intro ks
  induction ks with
  | nil => intro vs _; simp
  | cons k ks ih =>
      intro vs h
      cases vs with
      | nil => simp
      | cons v vs =>
          have hck : (c == k) = false :=
            beq_eq_false_iff_ne.mpr (h k (List.mem_cons_self k ks))
          simp only [List.zip_cons_cons, List.lookup, hck]
          exact ih vs (fun k' hk' => h k' (List.mem_cons_of_mem k hk'))

theorem asciiLower_of_isDigit {c : Char} (h : c.isDigit = true) : asciiLower c = c := by
  rw [asciiLower, lookup_zip_eq_none upperChars lowerChars, Option.getD_none]
  intro k hk he
  have hku : k.isDigit = false := by
    revert hk
    have : ∀ k ∈ upperChars, k.isDigit = false := by decide
    exact this k
  rw [he] at h
  rw [h] at hku
  cases hku

theorem pyWs_of_isDigit {c : Char} (h : c.isDigit = true) : pyWs c = false := by
  cases hpw : pyWs c
  · rfl
  · exfalso
    have hmem : c ∈ wsChars := by
      rw [pyWs, List.contains_eq_any_beq] at hpw
      simp only [List.any_eq_true, beq_iff_eq] at hpw
      obtain ⟨k, hk, rfl⟩ := hpw
      exact hk
    have hall : ∀ k ∈ wsChars, k.isDigit = false := by decide
    have := hall c hmem
    rw [h] at this
    cases this

theorem ne_underscore_of_isDigit {c : Char} (h : c.isDigit = true) : (c != '_') = true := by
  have hne : c ≠ '_' := by
    intro he
    rw [he] at h
    cases h
  simpa using hne

theorem takeWhile_digits {ds : List Char} (h : ∀ c ∈ ds, c.isDigit = true) :
    ds.takeWhile Char.isDigit = ds :=
  List.takeWhile_eq_self_iff.mpr h

/-- A (sign plus) digit string sails through the Decimal constructor
unchanged: whitespace stripping, underscore removal and lowercasing
are the identity on it, and the grammar reads it as coefficient with
exponent zero. -/
theorem parseDecString_digits {ds : List Char} (hne : ds ≠ [])
    (h : ∀ c ∈ ds, c.isDigit = true) :
    parseDecString (String.mk ds) = some (.fin (digitsToNat ds : Int) 0) ∧
    parseDecString (String.mk ('-' :: ds)) = some (.fin (-(digitsToNat ds : Int)) 0) ∧
    parseDecString (String.mk ('+' :: ds)) = some (.fin (digitsToNat ds : Int) 0) := by
  have hds : ∀ (cs : List Char), (∀ c ∈ cs, c.isDigit = true) → cs ≠ [] →
      parseFin cs = some (digitsToNat cs, 0) := by
    intro cs hcs hcsne
    rw [parseFin]
    simp only [takeWhile_digits hcs, List.drop_length]
    rw [if_neg (by simpa using hcsne)]
  have hclean : ∀ (c0 : List Char), (∀ c ∈ c0, pyWs c = false) →
      (∀ c ∈ c0, (c != '_') = true) → (∀ c ∈ c0, asciiLower c = c) →
      ((stripEnds c0).filter (fun c => c != '_')).map asciiLower = c0 := by
    intro c0 h1 h2 h3
    rw [stripEnds_eq_self h1, List.filter_eq_self.mpr h2, map_eq_self_of h3]
  have hdigitClean : ((stripEnds ds).filter (fun c => c != '_')).map asciiLower = ds :=
    hclean ds (fun c hc => pyWs_of_isDigit (h c hc))
      (fun c hc => ne_underscore_of_isDigit (h c hc))
      (fun c hc => asciiLower_of_isDigit (h c hc))
  refine ⟨?_, ?_, ?_⟩
  · rw [parseDecString]
    simp only [String.toList, hdigitClean]
    have hsign : parseSign ds = (false, ds) := by
      cases ds with
      | nil => rfl
      | cons c cs =>
          have hc := h c (List.mem_cons_self c cs)
          rw [parseSign.eq_def]
          have hneg : c ≠ '-' := by intro he; rw [he] at hc; cases hc
          have hpos : c ≠ '+' := by intro he; rw [he] at hc; cases hc
          split
          · rename_i heq
            cases heq
            exact absurd rfl hneg
          · rename_i heq
            cases heq
            exact absurd rfl hpos
          · rfl
    rw [hsign]
    simp [hds ds h hne]
  · rw [parseDecString]
    have : ((stripEnds ('-' :: ds)).filter (fun c => c != '_')).map asciiLower
        = '-' :: ds := by
      have h1 : ∀ c ∈ ('-' :: ds), pyWs c = false := by
        intro c hc
        rcases List.mem_cons.mp hc with rfl | hc'
        · decide
        · exact pyWs_of_isDigit (h c hc')
      have h2 : ∀ c ∈ ('-' :: ds), (c != '_') = true := by
        intro c hc
        rcases List.mem_cons.mp hc with rfl | hc'
        · decide
        · exact ne_underscore_of_isDigit (h c hc')
      have h3 : ∀ c ∈ ('-' :: ds), asciiLower c = c := by
        intro c hc
        rcases List.mem_cons.mp hc with rfl | hc'
        · decide
        · exact asciiLower_of_isDigit (h c hc')
      exact hclean _ h1 h2 h3
    simp only [String.toList, this, parseSign]
    simp [hds ds h hne]
  · rw [parseDecString]
    have : ((stripEnds ('+' :: ds)).filter (fun c => c != '_')).map asciiLower
        = '+' :: ds := by
      have h1 : ∀ c ∈ ('+' :: ds), pyWs c = false := by
        intro c hc
        rcases List.mem_cons.mp hc with rfl | hc'
        · decide
        · exact pyWs_of_isDigit (h c hc')
      have h2 : ∀ c ∈ ('+' :: ds), (c != '_') = true := by
        intro c hc
        rcases List.mem_cons.mp hc with rfl | hc'
        · decide
        · exact ne_underscore_of_isDigit (h c hc')
      have h3 : ∀ c ∈ ('+' :: ds), asciiLower c = c := by
        intro c hc
        rcases List.mem_cons.mp hc with rfl | hc'
        · decide
        · exact asciiLower_of_isDigit (h c hc')
      exact hclean _ h1 h2 h3
    simp only [String.toList, this, parseSign]
    simp [hds ds h hne]

theorem toDec_fin_zero (a : Int) : (PreDec.fin a 0).toDec = Dec.fin (a : ℚ) := by
  rw [PreDec.toDec, mulPow10_eq, zpow_zero, mul_one]

/-- Every integer literal is accepted by the Decimal constructor, with
its integer value as coefficient and exponent zero. -/
theorem intLit_parseDecString {s : String} {a : Int} (h : intLit? s = some a) :
    parseDecString s = some (.fin a 0) := by
  rw [intLit?] at h
  split at h
  · rename_i ds heq
    rw [digitsVal?] at h
    split at h
    · rename_i hguard
      simp only [Option.map_some', Option.some.injEq] at h
      simp only [Bool.and_eq_true] at hguard
      obtain ⟨hne', hall⟩ := hguard
      have hdsne : ds ≠ [] := by
        intro he
        rw [he] at hne'
        cases hne'
      have hdig : ∀ c ∈ ds, c.isDigit = true := by
        intro c hc
        exact List.all_eq_true.mp hall c hc
      have hsval : s = String.mk ('-' :: ds) := by
        cases s with
        | mk data => rw [show data = '-' :: ds from heq]
      rw [hsval, (parseDecString_digits hdsne hdig).2.1, ← h]
      rfl
    · cases h
  · rename_i ds heq
    rw [digitsVal?] at h
    split at h
    · rename_i hguard
      simp only [Option.map_some', Option.some.injEq] at h
      simp only [Bool.and_eq_true] at hguard
      obtain ⟨hne', hall⟩ := hguard
      have hdsne : ds ≠ [] := by
        intro he
        rw [he] at hne'
        cases hne'
      have hdig : ∀ c ∈ ds, c.isDigit = true := by
        intro c hc
        exact List.all_eq_true.mp hall c hc
      have hsval : s = String.mk ('+' :: ds) := by
        cases s with
        | mk data => rw [show data = '+' :: ds from heq]
      rw [hsval, (parseDecString_digits hdsne hdig).2.2, ← h]
      rfl
    · cases h
  · rw [digitsVal?] at h
    split at h
    · rename_i hguard
      simp only [Option.map_some', Option.some.injEq] at h
      simp only [Bool.and_eq_true] at hguard
      obtain ⟨hne', hall⟩ := hguard
      have hdsne : s.toList ≠ [] := by
        intro he
        rw [he] at hne'
        cases hne'
      have hdig : ∀ c ∈ s.toList, c.isDigit = true := by
        intro c hc
        exact List.all_eq_true.mp hall c hc
      have hval := (parseDecString_digits hdsne hdig).1
      rw [← h]
      exact hval
    · cases h

/-- `_parse_number` on a two-part split of integer literals reduces to
the embedded Decimal division of their values. -/
theorem parse_number_intLit {s num den : String} {a b : Int}
    (hs : pySplit s '/' = [num, den])
    (ha : intLit? num = some a) (hb : intLit? den = some b) :
    _parse_number s = decDiv (Dec.fin (a : ℚ)) (Dec.fin (b : ℚ)) := by
  rw [_parse_number, hs]
  simp only [intLit_parseDecString ha, intLit_parseDecString hb, toDec_fin_zero]

theorem parse_number_not_two {s : String}
    (h : (pySplit s '/').length ≠ 2) : _parse_number s = .error .valueError := by
  rw [_parse_number]
  match hl : pySplit s '/' with
  | [] => rfl
  | [x] => rfl
  | [x, y] =>
      rw [hl] at h
      simp at h
  | x :: y :: z :: rest => rfl

theorem parse_number_bad_left {s num den : String}
    (hs : pySplit s '/' = [num, den]) (h : parseDecString num = none) :
    _parse_number s = .error .invalidOperation := by
  rw [_parse_number, hs]
  simp only [h]

theorem parse_number_bad_right {s num den : String} {a : PreDec}
    (hs : pySplit s '/' = [num, den]) (ha : parseDecString num = some a)
    (h : parseDecString den = none) :
    _parse_number s = .error .invalidOperation := by
  rw [_parse_number, hs]
  simp only [ha, h]

end Num

namespace Slots

/--
The fragment of an `ElementTree` element the slots parser reads: tag,
attributes, text content (`None` for an empty element) and child
elements.  `find`/`findall` with a plain tag path search the direct
children, as the parser uses them.
-/
inductive XElem where
  | mk (tag : String) (attrs : List (String × String)) (text : Option String)
      (children : List XElem)

def XElem.tag : XElem → String
  | .mk t _ _ _ => t

def XElem.attrs : XElem → List (String × String)
  | .mk _ a _ _ => a

def XElem.text : XElem → Option String
  | .mk _ _ x _ => x

def XElem.children : XElem → List XElem
  | .mk _ _ _ cs => cs

/-- `elt.findall(tag)`: the direct children with the given tag. -/
def XElem.findall (e : XElem) (t : String) : List XElem :=
  e.children.filter (fun c => c.tag == t)

/-- `elt.find(tag)`: the first direct child with the given tag. -/
def XElem.find (e : XElem) (t : String) : Option XElem :=
  e.children.find? (fun c => c.tag == t)

/-- `elt.get(key, default)`: attribute lookup with a default. -/
def XElem.attrD (e : XElem) (k default : String) : String :=
  (e.attrs.lookup k).getD default

mutual

/-- Size of an element, for the recursion measure. -/
def XElem.esize : XElem → Nat
  | .mk _ _ _ cs => 1 + esizeList cs

/-- Size of a list of elements. -/
def esizeList : List XElem → Nat
  | [] => 0
  | c :: cs => c.esize + esizeList cs

end

theorem XElem.esize_eq (e : XElem) : e.esize = 1 + esizeList e.children := by
  cases e
  rfl

theorem esizeList_filter_le (p : XElem → Bool) (l : List XElem) :
    esizeList (l.filter p) ≤ esizeList l := by
  induction l with
  | nil => simp [esizeList]
  | cons c cs ih =>
      by_cases h : p c
      · rw [List.filter_cons_of_pos h]
        simp only [esizeList]
        omega
      · rw [List.filter_cons_of_neg h]
        simp only [esizeList]
        have := XElem.esize_eq c
        omega

theorem esize_le_of_mem {x : XElem} {l : List XElem} (h : x ∈ l) :
    x.esize ≤ esizeList l := by
  induction l with
  | nil => cases h
  | cons c cs ih =>
      rcases List.mem_cons.mp h with rfl | h'
      · simp only [esizeList]
        omega
      · have := ih h'
        simp only [esizeList]
        omega

/-- The Python value of a typed slot. -/
inductive SlotValue where
  | int (n : Int)
  | numeric (d : Num.Dec)
  | str (s : Option String)
  | date (s : String)
  | frame (m : List (Option String × SlotValue))

/-- A slots dictionary: keys in insertion order; `slot:key` text can be
absent, so keys are optional strings like in Python. -/
def Slots := List (Option String × SlotValue)

/-- Python dict assignment `m[k] = v`: overwrite in place, else append. -/
def assocSet (m : Slots) (k : Option String) (v : SlotValue) : Slots :=
  match m with
  | [] => [(k, v)]
  | (k', v') :: rest => if k' = k then (k, v) :: rest else (k', v') :: assocSet rest k v

/-- Python `int(text)` on an element's text: `TypeError` on `None`,
`ValueError` on anything but an optionally signed digit string
(modulo whitespace). -/
def pyInt (s : Option String) : Except PyErr Int :=
  match s with
  | none => .error .typeError
  | some str =>
      let cs := Num.stripEnds str.toList
      let (neg, cs') := Num.parseSign cs
      if (!cs'.isEmpty) && cs'.all Char.isDigit then
        .ok (if neg then -(Int.ofNat (Num.digitsToNat cs'))
             else Int.ofNat (Num.digitsToNat cs'))
      else .error .valueError

/-- Modelled from the spec: `dateutil.parser.parse` is a third-party
collaborator, not part of this repository; per §4.1 it parses a
date/time string and fails on unparseable input.  A parsed date is
represented by its raw text (an injective abstraction); `None`
raises `TypeError` as in dateutil. -/
def parse_date : Option String → Except PyErr String
  | none => .error .typeError
  | some str => .ok str

def slotKeyTag : String := "{http://www.gnucash.org/XML/slot}key"

def slotValueTag : String := "{http://www.gnucash.org/XML/slot}value"

def tsDateTag : String := "{http://www.gnucash.org/XML/ts}date"

/-- The value-type tags `_slots_from_tree` recognizes. -/
def recognizedSlotTypes : List String :=
  ["integer", "double", "numeric", "string", "guid", "gdate", "timespec", "frame"]

mutual

/--
Embedding of `_slots_from_tree` (gnucashxml.py:602-626).  An absent
slots subtree yields the empty dict; otherwise every direct `slot`
child is decoded in document order into the dict.
-/
def _slots_from_tree : Option XElem → Except PyErr Slots
  | none => .ok []
  | some tree => slotsList [] (tree.findall "slot")
termination_by o => ((match o with | none => 0 | some t => t.esize), 2)
decreasing_by
  apply Prod.Lex.left
  have h1 := esizeList_filter_le (fun c => c.tag == "slot") tree.children
  have h2 := XElem.esize_eq tree
  simp only [XElem.findall]
  omega

/-- The `for elt in tree.findall("slot")` loop, with the dict built so far. -/
def slotsList : Slots → List XElem → Except PyErr Slots
  | acc, [] => .ok acc
  | acc, elt :: rest =>
      match slotOne elt with
      | .error e => .error e
      | .ok (k, v) => slotsList (assocSet acc k v) rest
termination_by _ l => (esizeList l, 1)
decreasing_by
  · apply Prod.Lex.right'
    · simp only [esizeList]
      omega
    · omega
  · apply Prod.Lex.left
    simp only [esizeList]
    have hp : 1 ≤ elt.esize := by
      rw [XElem.esize_eq]
      omega
    omega

/--
Decoding of one `slot` element: read the key text, find the typed
value element, and dispatch on its `type` attribute
(default `"string"`).  An unrecognized type raises
`RuntimeError("Unknown slot type ...")`; a missing `slot:key` or
`slot:value` child raises `AttributeError` (`None.text` / `None.get`).
-/
def slotOne (elt : XElem) : Except PyErr (Option String × SlotValue) :=
  match elt.find slotKeyTag with
  | none => .error .attributeError
  | some keyElem =>
      match hval : elt.find slotValueTag with
      | none => .error .attributeError
      | some value =>
          let type_ := value.attrD "type" "string"
          if type_ = "integer" ∨ type_ = "double" then
            (pyInt value.text).map (fun n => (keyElem.text, .int n))
          else if type_ = "numeric" then
            match value.text with
            | none => .error .attributeError
            | some t => (Num._parse_number t).map (fun d => (keyElem.text, .numeric d))
          else if type_ = "string" ∨ type_ = "guid" then
            .ok (keyElem.text, .str value.text)
          else if type_ = "gdate" then
            match value.find "gdate" with
            | none => .error .attributeError
            | some g => (parse_date g.text).map (fun d => (keyElem.text, .date d))
          else if type_ = "timespec" then
            match value.find tsDateTag with
            | none => .error .attributeError
            | some g => (parse_date g.text).map (fun d => (keyElem.text, .date d))
          else if type_ = "frame" then
            (_slots_from_tree (some value)).map (fun m => (keyElem.text, .frame m))
          else .error (.runtimeError type_)
termination_by (elt.esize, 0)
decreasing_by
  apply Prod.Lex.left
  have hmem : value ∈ elt.children := List.mem_of_find?_eq_some hval
  have h1 := esize_le_of_mem hmem
  have h2 := XElem.esize_eq elt
  omega

end

theorem slots_from_tree_none : _slots_from_tree none = .ok [] := by
  rw [_slots_from_tree]

theorem slots_from_tree_some (tree : XElem) :
    _slots_from_tree (some tree) = slotsList [] (tree.findall "slot") := by
  rw [_slots_from_tree]

theorem slotsList_nil (acc : Slots) : slotsList acc [] = .ok acc := by
  rw [slotsList]

theorem slotsList_cons (acc : Slots) (elt : XElem) (rest : List XElem) :
    slotsList acc (elt :: rest) =
      match slotOne elt with
      | .error e => .error e
      | .ok (k, v) => slotsList (assocSet acc k v) rest := by
  rw [slotsList]

/-- An unrecognized value-type tag makes `slotOne` raise the
`RuntimeError` naming that tag. -/
theorem slotOne_unknown {elt keyElem v : XElem}
    (hk : elt.find slotKeyTag = some keyElem)
    (hv : elt.find slotValueTag = some v)
    (ht : v.attrD "type" "string" ∉ recognizedSlotTypes) :
    slotOne elt = .error (.runtimeError (v.attrD "type" "string")) := by
  simp only [recognizedSlotTypes, List.mem_cons, List.not_mem_nil, or_false] at ht
  push_neg at ht
  obtain ⟨h1, h2, h3, h4, h5, h6, h7, h8⟩ := ht
  rw [slotOne]
  split
  · rename_i heq
    rw [hk] at heq
    cases heq
  · rename_i keyElem' heq
    rw [hk] at heq
    cases heq
    split
    · rename_i heq2
      rw [hv] at heq2
      cases heq2
    · rename_i v' heq2
      rw [hv] at heq2
      cases heq2
      simp [h1, h2, h3, h4, h5, h6, h7, h8]

/-- `slotOne` only succeeds on recognized value types. -/
theorem slotOne_ok_type {elt v : XElem} {kv : Option String × SlotValue}
    (hok : slotOne elt = .ok kv) (hv : elt.find slotValueTag = some v) :
    v.attrD "type" "string" ∈ recognizedSlotTypes := by
  by_contra ht
  cases hk : elt.find slotKeyTag with
  | none =>
      rw [slotOne] at hok
      simp only [hk] at hok
      cases hok
  | some keyElem =>
      rw [slotOne_unknown hk hv ht] at hok
      cases hok

/-- An erroring slot anywhere in the list makes the whole decoding
error: no slot is ever silently skipped. -/
theorem slotsList_error_of_mem {elt : XElem} {e : PyErr} :
    ∀ (l : List XElem) (acc : Slots), elt ∈ l → slotOne elt = .error e →
      ∃ e', slotsList acc l = .error e' := by
  intro l
  induction l with
  | nil =>
      intro acc h _
      cases h
  | cons a rest ih =>
      intro acc hmem herr
      rcases List.mem_cons.mp hmem with rfl | hmem'
      · refine ⟨e, ?_⟩
        rw [slotsList_cons]
        simp only [herr]
      · cases hone : slotOne a with
        | error e'' =>
            refine ⟨e'', ?_⟩
            rw [slotsList_cons]
            simp only [hone]
        | ok kv =>
            obtain ⟨e', he'⟩ := ih (assocSet acc kv.1 kv.2) hmem' herr
            refine ⟨e', ?_⟩
            rw [slotsList_cons]
            simp only [hone]
            exact he'

/-- If the whole decoding succeeds, every slot's value type was recognized. -/
theorem slotsList_ok_types {m : Slots} :
    ∀ (l : List XElem) (acc : Slots), slotsList acc l = .ok m →
      ∀ elt ∈ l, ∀ v : XElem, elt.find slotValueTag = some v →
        v.attrD "type" "string" ∈ recognizedSlotTypes := by
  intro l
  induction l with
  | nil =>
      intro acc _ elt h
      cases h
  | cons a rest ih =>
      intro acc hok elt hmem v hv
      rw [slotsList_cons] at hok
      cases hone : slotOne a with
      | error e =>
          rw [hone] at hok
          cases hok
      | ok kv =>
          rw [hone] at hok
          rcases List.mem_cons.mp hmem with rfl | hmem'
          · exact slotOne_ok_type hone hv
          · exact ih (assocSet acc kv.1 kv.2) hok elt hmem' v hv

end Slots

namespace Ledger

/--
A posting timestamp as `dateutil.parser.parse` returns it: a calendar
date-time.  Python `datetime` comparison is lexicographic on the
components.
-/
structure PyDateTime where
  year : Nat
  month : Nat
  day : Nat
  hour : Nat
  minute : Nat
  second : Nat
deriving DecidableEq, Repr

/-- Strict lexicographic comparison of equal-length numeric keys,
mirroring Python tuple/datetime comparison. -/
def natListLt : List Nat → List Nat → Bool
  | [], [] => false
  | [], _ :: _ => true
  | _ :: _, [] => false
  | a :: as, b :: bs => if a < b then true else if b < a then false else natListLt as bs

/-- The comparison key of a datetime. -/
def PyDateTime.key (d : PyDateTime) : List Nat :=
  [d.year, d.month, d.day, d.hour, d.minute, d.second]

/-- Python `datetime.__lt__`. -/
def dtLt (a b : PyDateTime) : Bool := natListLt a.key b.key

/-- The fields of a `Split` the ledger report reads. -/
structure LSplit where
  reconciled_state : Option String
  memo : Option String
deriving DecidableEq, Repr

/-- The fields of a `Transaction` the ledger report reads.  `date` is
the posting date (`trn:date-posted`), which `Transaction.__lt__`
compares. -/
structure Transaction where
  guid : String
  date : PyDateTime
  description : Option String
  splits : List LSplit
  slots : Slots.Slots

/--
The sort key relation of `sorted(self.transactions)`
(gnucashxml.py:83 with `Transaction.__lt__`, gnucashxml.py:234-239):
`a` may precede `b` unless `b < a` strictly by posting date.  Python's
sort is stable; a stable sort is determined by this relation, so it is
embedded as `List.mergeSort` with this comparator.
-/
def trnLe (a b : Transaction) : Bool := !(dtLt b.date a.date)

theorem natListLt_irrefl : ∀ as : List Nat, natListLt as as = false := by
  intro as
  induction as with
  | nil => rfl
  | cons a as ih =>
      rw [natListLt]
      simp [ih]

theorem natListLt_asymm : ∀ as bs : List Nat,
    natListLt as bs = true → natListLt bs as = false := by
  intro as
  induction as with
  | nil =>
      intro bs h
      cases bs with
      | nil => cases h
      | cons b bs => rfl
  | cons a as ih =>
      intro bs h
      cases bs with
      | nil => cases h
      | cons b bs =>
          rw [natListLt] at h ⊢
          split_ifs at h ⊢ with h1 h2 h3 h4 h5 h6
          all_goals first
            | rfl
            | omega
            | (exact ih bs h)
            | cases h

/-- `c < a` and `a ≤ b` (as failure of `b < a`) give `c < b`:
the lexicographic comparison is a strict linear order. -/
theorem natListLt_lt_of_lt_of_nlt : ∀ as bs cs : List Nat,
    natListLt cs as = true → natListLt bs as = false → natListLt cs bs = true := by
  intro as
  induction as with
  | nil =>
      intro bs cs hc hb
      cases cs with
      | nil => cases hc
      | cons c cs' => cases hc
  | cons a as ih =>
      intro bs cs hc hb
      cases cs with
      | nil =>
          cases bs with
          | nil => cases hb
          | cons b bs' => rfl
      | cons c cs' =>
          cases bs with
          | nil => cases hb
          | cons b bs' =>
              rw [natListLt] at hc hb ⊢
              split_ifs at hc hb ⊢ with h1 h2 h3 h4 h5 h6
              all_goals first
                | rfl
                | omega
                | (exact ih bs' cs' hc hb)
                | (exact Bool.noConfusion hc)
                | (exact Bool.noConfusion hb)

theorem trnLe_total (a b : Transaction) : trnLe a b || trnLe b a := by
  rw [trnLe, trnLe]
  cases h : dtLt b.date a.date
  · simp
  · have := natListLt_asymm _ _ h
    rw [dtLt, this]
    simp

theorem trnLe_trans (a b c : Transaction) :
    trnLe a b → trnLe b c → trnLe a c := by
  rw [trnLe, trnLe, trnLe]
  intro hab hbc
  simp only [Bool.not_eq_true'] at hab hbc ⊢
  cases hca : dtLt c.date a.date
  · rfl
  · exfalso
    have h1 : natListLt c.date.key b.date.key = true :=
      natListLt_lt_of_lt_of_nlt a.date.key b.date.key c.date.key hca hab
    rw [dtLt] at hbc
    rw [h1] at hbc
    cases hbc

/-- Zero-padded decimal rendering, as `%Y`/`%m`/`%d` produce. -/
def pad0 (w : Nat) (n : Nat) : String :=
  let s := toString n
  String.mk (List.replicate (w - s.length) '0') ++ s

/-- The `'{:%Y/%m/%d}'` date format of the transaction header line. -/
def fmtDate (d : PyDateTime) : String :=
  pad0 4 d.year ++ "/" ++ pad0 2 d.month ++ "/" ++ pad0 2 d.day

/-- `all(spl.reconciled_state == 'y' for spl in trn.splits)`
(gnucashxml.py:84) — vacuously true for an empty splits list. -/
def allReconciled (t : Transaction) : Bool :=
  t.splits.all (fun s => s.reconciled_state == some "y")

/-- The `" " + trn.description` part of the header (absent for `None`). -/
def descPart (t : Transaction) : String :=
  match t.description with
  | some d => " " ++ d
  | none => ""

/-- The `" ; " + trn.slots["notes"]` part of the header: present only
when the `notes` slot exists and is not `None`; concatenating a
non-string slot value raises `TypeError`. -/
def notesPart (t : Transaction) : Except PyErr String :=
  match t.slots.lookup (some "notes") with
  | none => .ok ""
  | some (.str none) => .ok ""
  | some (.str (some txt)) => .ok (" ; " ++ txt)
  | some _ => .error .typeError

/--
Embedding of the transaction header line of `Book.ledger`
(gnucashxml.py:85-89):

    outp.append('{:%Y/%m/%d}{}{}{}'.format(
        trn.date,
        " *" if reconciled else "",
        " " + trn.description if trn.description is not None else "",
        " ; " + trn.slots["notes"] if 'notes' in trn.slots and ... else ""))
-/
def transactionHeader (t : Transaction) : Except PyErr String :=
  (notesPart t).map (fun np =>
    fmtDate t.date ++ (if allReconciled t then " *" else "") ++ descPart t ++ np)

end Ledger

namespace Parse

/-- Which `ElementTree` implementation the `try: import lxml` header
(gnucashxml.py:26-29) selected: lxml when installed, else the stdlib. -/
inductive Backend where
  | stdlib
  | lxml
deriving DecidableEq, Repr

/-- Outcome of `ElementTree.parse(fobj)` on the byte stream: the root
element of a well-formed document, or a syntax error (the stdlib
parser raises `xml.etree.ElementTree.ParseError`, lxml raises
`lxml.etree.XMLSyntaxError`). -/
inductive XmlOutcome where
  | ok (root : Slots.XElem)
  | notWellFormed

/-- What escapes `parse` on failure.  `formatValueError` is the
explicit `ValueError("File stream was not a valid GNU Cash v2 XML
file")`; `xmlSyntaxError` is lxml's exception, which the
`except ParseError` clause (naming only the stdlib class,
gnucashxml.py:30) does not catch. -/
inductive ParseExc where
  | formatValueError
  | xmlSyntaxError
deriving DecidableEq, Repr

def gncBookTag : String := "{http://www.gnucash.org/XML/gnc}book"

/--
Embedding of `parse` (gnucashxml.py:324-334) up to the hand-off to
`_book_from_tree`: a stream that is not well-formed XML raises the
backend's syntax error, which is re-raised as the `ValueError` only
under the stdlib backend (`except ParseError` does not match lxml's
`XMLSyntaxError`); a root tag other than `gnc-v2` raises the
`ValueError` under either backend; otherwise the `gnc:book` subtree
(possibly absent) is handed to `_book_from_tree`.  No `Book` is
constructed on any failing path.
-/
def parse (backend : Backend) (x : XmlOutcome) : Except ParseExc (Option Slots.XElem) :=
  match x with
  | .notWellFormed =>
      match backend with
      | .stdlib => .error .formatValueError
      | .lxml => .error .xmlSyntaxError
  | .ok root =>
      if root.tag ≠ "gnc-v2" then .error .formatValueError
      else .ok (root.find gncBookTag)

end Parse

/--
The `Book` aggregate (gnucashxml.py:34-50), restricted to the fields
the verified operations read.  `root_account` is the account tree;
`transactions` carries the ledger-relevant transaction fields.
-/
structure Book where
  guid : String
  root_account : Walk.Account
  accounts : List Walk.Account
  transactions : List Ledger.Transaction
  commodities : List Comm.Commodity
  slots : Slots.Slots

/-- `Book.walk` (gnucashxml.py:55-56): delegate to the root account. -/
def Book.walk (b : Book) : List (Walk.Account × List Walk.Account × List String) :=
  b.root_account.walk

/-- The order in which `Book.ledger` (gnucashxml.py:83) renders
transactions: `sorted(self.transactions)`, a stable sort by
`Transaction.__lt__` (posting date). -/
def Book.ledgerTransactions (b : Book) : List Ledger.Transaction :=
  b.transactions.mergeSort Ledger.trnLe

namespace Walk

/-- Every triple the walk yields is `(account, account.children, account.splits)`. -/
theorem walkQ_shape (n : ℕ) :
    ∀ q : List Account, nodesList q = n →
      ∀ x ∈ walkQ q, x = (x.1, x.1.children, x.1.splits) := by
  induction n using Nat.strong_induction_on with
  | _ n ih =>
      intro q hq x hx
      match q with
      | [] =>
          rw [walkQ_nil] at hx
          cases hx
      | a :: rest =>
          rw [walkQ_cons] at hx
          rcases List.mem_cons.mp hx with rfl | hmem
          · rfl
          · have hlt : nodesList (rest ++ a.children) < n := by
              have h1 := nodesList_append rest a.children
              have h2 := Account.nodes_eq a
              simp only [nodesList] at hq
              omega
            exact ih _ hlt (rest ++ a.children) rfl x hmem

end Walk

namespace Comm

/-- Resolution at a pair already in the registry returns the stored instance. -/
theorem resolveRef_eq_of_lookup {st st' : RegState} {r : CommodityRef}
    {c c₀ : Commodity} (hl : st.commoditydict.lookup r.pair = some c₀)
    (h : resolveRef st r = some (c, st')) : c = c₀ := by
  cases r with
  | priceRef space name =>
      simp only [CommodityRef.pair] at hl
      simp only [resolveRef, Option.some.injEq] at h
      rw [commodity_find, hl] at h
      cases h
      rfl
  | accountRef space name =>
      simp only [CommodityRef.pair] at hl
      simp only [resolveRef, hl, Option.map_some', Option.some.injEq] at h
      cases h
      rfl
  | trnRef space name =>
      simp only [CommodityRef.pair] at hl
      simp only [resolveRef, hl, Option.map_some', Option.some.injEq] at h
      cases h
      rfl

/-- Population never removes a registry binding (it may overwrite one). -/
theorem populate_lookup_isSome :
    ∀ (decls : List (String × String × Option Int)) (st : RegState)
      (l : List Commodity) (st' : RegState),
      populateCommodities st decls = (l, st') →
      ∀ p : String × String,
        (st.commoditydict.lookup p).isSome → (st'.commoditydict.lookup p).isSome := by
  intro decls
  induction decls with
  | nil =>
      intro st l st' h p hp
      rw [populateCommodities] at h
      cases h
      exact hp
  | cons d rest ih =>
      intro st l st' h p hp
      obtain ⟨space, name, fr⟩ := d
      rw [populateCommodities] at h
      cases hrec : populateCommodities
          ⟨((space, name), mkCommodity name space fr st.nextOid) :: st.commoditydict,
            st.nextOid + 1⟩ rest with
      | mk cs st₂ =>
          rw [hrec] at h
          cases h
          refine ih _ _ _ hrec p ?_
          by_cases hpk : p = (space, name)
          · subst hpk
            simp [List.lookup]
          · have hb : (p == (space, name)) = false := beq_eq_false_iff_ne.mpr hpk
            simpa [List.lookup, hb] using hp

/-- Every top-level declaration ends up in the registry. -/
theorem populate_mem_lookup :
    ∀ (decls : List (String × String × Option Int)) (st : RegState)
      (l : List Commodity) (st' : RegState),
      populateCommodities st decls = (l, st') →
      ∀ d ∈ decls, (st'.commoditydict.lookup (d.1, d.2.1)).isSome := by
  intro decls
  induction decls with
  | nil =>
      intro st l st' h d hd
      cases hd
  | cons d₀ rest ih =>
      intro st l st' h d hd
      obtain ⟨space, name, fr⟩ := d₀
      rw [populateCommodities] at h
      cases hrec : populateCommodities
          ⟨((space, name), mkCommodity name space fr st.nextOid) :: st.commoditydict,
            st.nextOid + 1⟩ rest with
      | mk cs st₂ =>
          rw [hrec] at h
          cases h
          rcases List.mem_cons.mp hd with rfl | hmem
          · refine populate_lookup_isSome rest _ _ _ hrec (space, name) ?_
            simp [List.lookup]
          · exact ih _ _ _ hrec d hmem

end Comm


/-! Fixtures: concrete inputs used by the claim witnesses. -/

/-- A leaf account: `Assets`, guid `a`. -/
def accAssets : Walk.Account := .mk "Assets" "a" "ASSET" [] []

/-- A root account with one child. -/
def accRoot : Walk.Account := .mk "Root Account" "r" "ROOT" [] [accAssets]

/-- A one-child book for the walk witness. -/
def bookW : Book :=
  { guid := "book-guid"
    root_account := accRoot
    accounts := [accAssets]
    transactions := []
    commodities := []
    slots := [] }

/-- Pass-1 records of a two-account document. -/
def recsW : List Link.AccountRec :=
  [⟨"r", "ROOT", none⟩, ⟨"a", "ASSET", some "r"⟩]

/-- The linking state pass 2 produces on `recsW`. -/
def stW : Link.LinkState := ⟨[("a", "r")], [("r", ["a"])]⟩

/-- A transaction with no splits, dated 2020-01-02. -/
def trnW : Ledger.Transaction :=
  { guid := "t1"
    date := ⟨2020, 1, 2, 0, 0, 0⟩
    description := some "desc"
    splits := []
    slots := [] }

/-- A book holding only `trnW`. -/
def bookT : Book :=
  { guid := "book-guid"
    root_account := accRoot
    accounts := []
    transactions := [trnW]
    commodities := []
    slots := [] }

/-- A slot element whose value carries the unrecognized type `weird`. -/
def slotBad : Slots.XElem :=
  .mk "slot" [] none
    [.mk Slots.slotKeyTag [] (some "k") [],
     .mk Slots.slotValueTag [("type", "weird")] (some "x") []]

/-- The key child of `slotBad`. -/
def slotBadKey : Slots.XElem := .mk Slots.slotKeyTag [] (some "k") []

/-- The value child of `slotBad`. -/
def slotBadValue : Slots.XElem := .mk Slots.slotValueTag [("type", "weird")] (some "x") []

/-- A slots subtree holding only `slotBad`. -/
def slotsBadTree : Slots.XElem := .mk "slots" [] none [slotBad]

/-! The claims. -/

/--
C1: for every Book built from a valid document, the sequence produced
by `walk()` (`Book.walk` delegating to the root account's walk) yields
each account of the account tree exactly once (a permutation of the
tree's node list), yields every parent before any of its children (the
output decomposes around each parent/child pair, parent first), is
finite (it is a list), and consists of
`(account, children-snapshot, splits)` triples.
-/
theorem claim_C1_walk_bfs (b : Book) (a c : Walk.Account)
    (ha : a ∈ b.root_account.allNodes) (hc : c ∈ a.children) :
    (b.walk.map Prod.fst).Perm b.root_account.allNodes ∧
    (∀ x ∈ b.walk, x = (x.1, x.1.children, x.1.splits)) ∧
    (∃ l₁ l₂ l₃, b.walk.map Prod.fst = l₁ ++ a :: (l₂ ++ c :: l₃)) := by
  have hsing : Walk.allNodesList [b.root_account] = b.root_account.allNodes := by
    rw [Walk.allNodesList, Walk.allNodesList, List.append_nil]
  refine ⟨?_, ?_, ?_⟩
  · have hperm := Walk.walkAccounts_perm (Walk.nodesList [b.root_account])
      [b.root_account] rfl
    rw [hsing] at hperm
    exact hperm
  · intro x hx
    exact Walk.walkQ_shape (Walk.nodesList [b.root_account]) [b.root_account] rfl x hx
  · have ha' : a ∈ Walk.allNodesList [b.root_account] := by
      rw [hsing]
      exact ha
    exact Walk.walk_decomp (Walk.nodesList [b.root_account]) [b.root_account] a c
      rfl ha' hc

/-- C1 witness: the walk of a concrete two-account book. -/
theorem claim_C1_walk_bfs_witness :
    ((bookW.walk.map Prod.fst).Perm bookW.root_account.allNodes ∧
    (∀ x ∈ bookW.walk, x = (x.1, x.1.children, x.1.splits)) ∧
    (∃ l₁ l₂ l₃, bookW.walk.map Prod.fst = l₁ ++ accRoot :: (l₂ ++ accAssets :: l₃))) :=
  claim_C1_walk_bfs bookW accRoot accAssets
    (by rw [show bookW.root_account = accRoot from rfl, Walk.Account.allNodes_eq]
        exact List.mem_cons_self _ _)
    (List.mem_cons_self _ _)

/--
C2: after the two-pass account assembly of `_book_from_tree` completes
(pass 2 returns a state rather than raising `KeyError`), every
non-ROOT account's parent is set to the guid recorded for it in pass 1
(which resolves in `accountdict`), the account appears exactly once in
that parent's children list, and the ROOT account keeps `parent = None`.
-/
theorem claim_C2_two_pass_linking (recs : List Link.AccountRec) (st : Link.LinkState)
    (hnd : (recs.map Link.AccountRec.guid).Nodup)
    (hrun : Link.pass2 (recs.map Link.AccountRec.guid) Link.initState recs = some st) :
    (∀ r ∈ recs, r.actype ≠ "ROOT" → ∀ pg, r.parentGuid = some pg →
      pg ∈ recs.map Link.AccountRec.guid ∧
      st.parentOf r.guid = some pg ∧
      (st.childrenOf pg).count r.guid = 1) ∧
    (∀ r ∈ recs, r.actype = "ROOT" → st.parentOf r.guid = none) := by
  obtain ⟨hmain, hroot, -, -⟩ :=
    Link.pass2_spec (recs.map Link.AccountRec.guid) recs Link.initState st hrun hnd
      (fun r _ => rfl) (fun r _ g => rfl)
  refine ⟨?_, hroot⟩
  intro r hr hna pg hpg
  obtain ⟨h1, h2, h3, -⟩ := hmain r hr hna pg hpg
  exact ⟨h1, h2, h3⟩

/-- C2 witness: linking a concrete ROOT + one child document. -/
theorem claim_C2_two_pass_linking_witness :
    Link.pass2 ["r", "a"] Link.initState recsW = some stW ∧
    stW.parentOf "a" = some "r" ∧
    (stW.childrenOf "r").count "a" = 1 ∧
    stW.parentOf "r" = none := by
  have hrun : Link.pass2 (recsW.map Link.AccountRec.guid) Link.initState recsW
      = some stW := by decide
  have h := claim_C2_two_pass_linking recsW stW (by decide) hrun
  have h1 := (h.1 ⟨"a", "ASSET", some "r"⟩ (by decide) (by decide) "r" rfl).2.1
  have h2 := (h.1 ⟨"a", "ASSET", some "r"⟩ (by decide) (by decide) "r" rfl).2.2
  have h3 := h.2 ⟨"r", "ROOT", none⟩ (by decide) rfl
  exact ⟨hrun, h1, h2, h3⟩

/--
C3: within one parsed Book, any two entity builders that resolve a
commodity by the same `(namespace, identifier)` pair — whether through
`_commodity_find` (prices) or through the `commoditydict` subscript
(accounts, transactions), with any other resolutions in between —
receive the identical `Commodity` instance (the same allocation, not a
structurally equal copy).
-/
theorem claim_C3_commodity_identity (st st₁ st₂ st₃ : Comm.RegState)
    (ops : List Comm.CommodityRef) (r₁ r₂ : Comm.CommodityRef)
    (c₁ c₂ : Comm.Commodity)
    (h1 : Comm.resolveRef st r₁ = some (c₁, st₁))
    (hops : Comm.runRefs st₁ ops = some st₂)
    (h2 : Comm.resolveRef st₂ r₂ = some (c₂, st₃))
    (hpair : r₁.pair = r₂.pair) :
    c₂ = c₁ ∧ c₂.oid = c₁.oid := by
  have hl₁ : st₁.commoditydict.lookup r₁.pair = some c₁ := Comm.resolveRef_lookup h1
  have hl₂ : st₂.commoditydict.lookup r₁.pair = some c₁ := Comm.runRefs_mono hl₁ hops
  rw [hpair] at hl₂
  have heq := Comm.resolveRef_eq_of_lookup hl₂ h2
  exact ⟨heq, by rw [heq]⟩

/-- C3 witness: a price reference creates `USD`; after further
resolutions, a transaction reference to the same pair gets the same
instance (allocation 0). -/
theorem claim_C3_commodity_identity_witness :
    (Comm.mkCommodity "USD" "CURRENCY" none 0
      = Comm.mkCommodity "USD" "CURRENCY" none 0) ∧
    (Comm.mkCommodity "USD" "CURRENCY" none 0).oid
      = (Comm.mkCommodity "USD" "CURRENCY" none 0).oid := by
  refine claim_C3_commodity_identity ⟨[], 0⟩
    ⟨[(("CURRENCY", "USD"), Comm.mkCommodity "USD" "CURRENCY" none 0)], 1⟩
    ?_ ?_ [.priceRef "CURRENCY" "EUR", .accountRef "CURRENCY" "USD"]
    (.priceRef "CURRENCY" "USD") (.trnRef "CURRENCY" "USD") _ _ ?_ ?_ ?_ ?_
  · exact ⟨[(("CURRENCY", "EUR"), Comm.mkCommodity "EUR" "CURRENCY" none 1),
      (("CURRENCY", "USD"), Comm.mkCommodity "USD" "CURRENCY" none 0)], 2⟩
  · exact ⟨[(("CURRENCY", "EUR"), Comm.mkCommodity "EUR" "CURRENCY" none 1),
      (("CURRENCY", "USD"), Comm.mkCommodity "USD" "CURRENCY" none 0)], 2⟩
  · decide
  · decide
  · decide
  · decide

/--
C4 counterexample: an Account builder resolving a commodity pair that
is not yet in the registry does not create and register a new
`Commodity` — the dict subscript fails (`KeyError`), contradicting the
claim that such a reference "creates and registers a new Commodity
rather than failing" for Accounts.  The same holds for Transactions.
-/
theorem claim_C4_lazy_registry_counterexample :
    (Comm.RegState.mk [] 0).commoditydict.lookup ("CURRENCY", "USD") = none ∧
    Comm.resolveRef ⟨[], 0⟩ (.accountRef "CURRENCY" "USD") = none ∧
    Comm.resolveRef ⟨[], 0⟩ (.trnRef "CURRENCY" "USD") = none := by
  decide

/--
C4 amended: the registry is populated from the top-level commodity
declarations (each declared pair resolves afterwards), and is then
extended lazily by get-or-create only for `Price` references
(`_commodity_find`): a price reference to an unseen pair creates and
registers a fresh `Commodity` with default fraction; `Account` and
`Transaction` references use a plain dict subscript, which returns the
registered instance when present and fails (`KeyError`) on an unseen
pair instead of creating one.
-/
theorem claim_C4_lazy_registry_amended (st : Comm.RegState) (space name : String) :
    (st.commoditydict.lookup (space, name) = none →
      Comm.resolveRef st (.priceRef space name)
          = some (Comm.mkCommodity name space none st.nextOid,
              ⟨((space, name), Comm.mkCommodity name space none st.nextOid)
                :: st.commoditydict, st.nextOid + 1⟩) ∧
      Comm.resolveRef st (.accountRef space name) = none ∧
      Comm.resolveRef st (.trnRef space name) = none) ∧
    (∀ c₀, st.commoditydict.lookup (space, name) = some c₀ →
      Comm.resolveRef st (.priceRef space name) = some (c₀, st) ∧
      Comm.resolveRef st (.accountRef space name) = some (c₀, st) ∧
      Comm.resolveRef st (.trnRef space name) = some (c₀, st)) ∧
    (∀ decls l st', Comm.populateCommodities st decls = (l, st') →
      ∀ d ∈ decls, (st'.commoditydict.lookup (d.1, d.2.1)).isSome) := by
  refine ⟨?_, ?_, ?_⟩
  · intro hnone
    refine ⟨?_, ?_, ?_⟩
    · simp only [Comm.resolveRef, Option.some.injEq]
      rw [Comm.commodity_find, hnone]
    · simp only [Comm.resolveRef, hnone, Option.map_none']
    · simp only [Comm.resolveRef, hnone, Option.map_none']
  · intro c₀ hsome
    refine ⟨?_, ?_, ?_⟩
    · simp only [Comm.resolveRef, Option.some.injEq]
      rw [Comm.commodity_find, hsome]
    · simp only [Comm.resolveRef, hsome, Option.map_some']
    · simp only [Comm.resolveRef, hsome, Option.map_some']
  · intro decls l st' h d hd
    exact Comm.populate_mem_lookup decls st l st' h d hd


/-- The concrete rounding of `1/3` at precision 28. -/
theorem roundSig28_one_third :
    Num.roundSig 28 ((1 : ℚ) / 3)
      = (3333333333333333333333333333 : ℚ) / 10 ^ 28 := by
  have hq0 : ((1 : ℚ) / 3) ≠ 0 := by norm_num
  have hE : Num.decExp ((1 : ℚ) / 3) = 0 := by
    refine Num.decExp_unique _ 0 hq0 ?_ ?_
    · have : ((10 : ℚ) ^ ((0 : ℤ) - 1)) = 1 / 10 := by
        norm_num
      rw [this, abs_of_pos (by norm_num : (0 : ℚ) < 1 / 3)]
      norm_num
    · rw [zpow_zero, abs_of_pos (by norm_num : (0 : ℚ) < 1 / 3)]
      norm_num
  rw [Num.roundSig, if_neg (by norm_num : ¬((1 : ℚ) / 3 = 0)), hE]
  have hx : Num.mulPow10 ((1 : ℚ) / 3) (((28 : ℕ) : ℤ) - 0) = 10 ^ 28 / 3 := by
    rw [Num.mulPow10_eq, show (((28 : ℕ) : ℤ) - 0) = ((28 : ℕ) : ℤ) by ring,
      zpow_natCast]
    ring
  rw [hx]
  have hfl : (⌊(10 : ℚ) ^ 28 / 3⌋ : ℤ) = 3333333333333333333333333333 := by
    rw [Int.floor_eq_iff]
    norm_num
  have hrd : Num.roundHalfEven ((10 : ℚ) ^ 28 / 3) = 3333333333333333333333333333 := by
    rw [Num.roundHalfEven]
    simp only [hfl]
    rw [if_pos (by norm_num)]
  rw [hrd]
  have hlast : Num.mulPow10 ((3333333333333333333333333333 : ℤ) : ℚ)
      (0 - ((28 : ℕ) : ℤ)) = (3333333333333333333333333333 : ℚ) / 10 ^ 28 := by
    rw [Num.mulPow10_eq, show ((0 : ℤ) - ((28 : ℕ) : ℤ)) = -((28 : ℕ) : ℤ) by ring,
      zpow_neg, zpow_natCast]
    push_cast
    ring
  exact hlast

/--
C5 counterexample: `_parse_number "1/3"` does not return the exact
quotient `1/3`: Python `Decimal` division rounds to the context
precision of 28 significant digits, so the result is
`0.3333333333333333333333333333`, which differs from `1/3`.
-/
theorem claim_C5_exact_quotient_counterexample :
    Num._parse_number "1/3"
      = .ok (.fin ((3333333333333333333333333333 : ℚ) / 10 ^ 28)) ∧
    ((3333333333333333333333333333 : ℚ) / 10 ^ 28) ≠ (1 : ℚ) / 3 := by
  constructor
  · have h := @Num.parse_number_intLit "1/3" "1" "3" 1 3
      (by decide) (by decide) (by decide)
    rw [h]
    simp only [Num.decDiv]
    rw [if_neg (by norm_num : ¬((3 : ℤ) : ℚ) = 0)]
    rw [show (((1 : ℤ) : ℚ) / ((3 : ℤ) : ℚ)) = (1 : ℚ) / 3 by norm_num]
    rw [roundSig28_one_third]
  · intro h
    rw [div_eq_div_iff (by norm_num) (by norm_num)] at h
    norm_num at h

/--
C5 amended: for every `"num/denom"` input whose two sides are decimal
integer literals with nonzero denominator, `_parse_number` returns the
quotient correctly rounded to 28 significant digits (half-even, the
default `decimal` context) — not the exact ratio in general; the
result is exact precisely for the representable cases: whenever the
true ratio can be written `c * 10 ^ e` with fewer than 29 significant
digits, rounding is the identity.
-/
theorem claim_C5_exact_quotient_amended (s num den : String) (a b : Int)
    (hs : Num.pySplit s '/' = [num, den])
    (ha : Num.intLit? num = some a) (hb : Num.intLit? den = some b)
    (hbz : b ≠ 0) :
    Num._parse_number s = .ok (.fin (Num.roundSig 28 ((a : ℚ) / (b : ℚ)))) ∧
    (∀ (q : ℚ) (c e : ℤ), q = (c : ℚ) * (10 : ℚ) ^ e → c.natAbs < 10 ^ 28 →
      Num.roundSig 28 q = q) := by
  constructor
  · rw [Num.parse_number_intLit hs ha hb]
    simp only [Num.decDiv]
    rw [if_neg (by exact_mod_cast hbz : ¬((b : ℤ) : ℚ) = 0)]
  · intro q c e hq hc
    exact Num.roundSig_exact 28 q c e hq hc

/-- C5 amended witness: `"5/4"` divides exactly (`1.25`, 3 significant
digits), and the theorem applies at it. -/
theorem claim_C5_exact_quotient_amended_witness :
    Num._parse_number "5/4" = .ok (.fin (Num.roundSig 28 (((5 : ℤ) : ℚ) / ((4 : ℤ) : ℚ)))) ∧
    (∀ (q : ℚ) (c e : ℤ), q = (c : ℚ) * (10 : ℚ) ^ e → c.natAbs < 10 ^ 28 →
      Num.roundSig 28 q = q) :=
  claim_C5_exact_quotient_amended "5/4" "5" "4" 5 4 (by decide) (by decide) (by decide)
    (by decide)

/--
C6 counterexample: `"3.5"` is not a decimal integer literal, yet
`_parse_number "3.5/2"` succeeds (the `Decimal` constructor accepts
the full decimal numeric-string grammar, not just integer literals),
returning `1.75` — the claim that every such input fails with
`FormatError` is false.
-/
theorem claim_C6_error_conditions_counterexample :
    Num.intLit? "3.5" = none ∧
    Num._parse_number "3.5/2" = .ok (.fin ((7 : ℚ) / 4)) := by
  refine ⟨by decide, ?_⟩
  have hsplit : Num.pySplit "3.5/2" '/' = ["3.5", "2"] := by decide
  have h35 : Num.parseDecString "3.5" = some (.fin 35 (-1)) := by decide
  have h2 : Num.parseDecString "2" = some (.fin 2 0) := by decide
  rw [Num._parse_number, hsplit]
  simp only [h35, h2]
  simp only [Num.PreDec.toDec]
  have hv1 : Num.mulPow10 ((35 : ℤ) : ℚ) (-1) = (7 : ℚ) / 2 := by
    rw [Num.mulPow10_eq, show ((-1 : ℤ)) = -((1 : ℕ) : ℤ) from rfl, zpow_neg,
      zpow_natCast]
    norm_num
  have hv2 : Num.mulPow10 ((2 : ℤ) : ℚ) 0 = 2 := by
    rw [Num.mulPow10_eq, zpow_zero]
    norm_num
  rw [hv1, hv2]
  simp only [Num.decDiv]
  rw [if_neg (by norm_num : ¬(2 : ℚ) = 0)]
  rw [show ((7 : ℚ) / 2 / 2) = (7 : ℚ) / 4 by norm_num]
  rw [Num.roundSig_exact 28 ((7 : ℚ) / 4) 175 (-2) ?_ (by norm_num)]
  rw [show ((-2 : ℤ)) = -((2 : ℕ) : ℤ) from rfl, zpow_neg, zpow_natCast]
  norm_num

/--
C6 amended: `_parse_number` fails with `ValueError` (the unpacking
error; the spec's `FormatError`) exactly when the input does not split
on `/` into two parts; given two parts, a side that the `Decimal`
numeric-string grammar rejects raises `InvalidOperation` — but that
grammar is broader than integer literals (fractions, exponents,
infinities and NaNs are accepted), so not every non-integer side
fails.  On integer-literal sides the call succeeds exactly when the
denominator is nonzero; a zero denominator raises `DivisionByZero`
(`InvalidOperation` for `0/0`), not `FormatError`.
-/
theorem claim_C6_error_conditions_amended (s num den : String) :
    ((Num.pySplit s '/').length ≠ 2 → Num._parse_number s = .error .valueError) ∧
    (Num.pySplit s '/' = [num, den] → Num.parseDecString num = none →
      Num._parse_number s = .error .invalidOperation) ∧
    (∀ a : Num.PreDec, Num.pySplit s '/' = [num, den] →
      Num.parseDecString num = some a → Num.parseDecString den = none →
      Num._parse_number s = .error .invalidOperation) ∧
    (∀ a b : Int, Num.pySplit s '/' = [num, den] → Num.intLit? num = some a →
      Num.intLit? den = some b →
      (b ≠ 0 → ∃ q : ℚ, Num._parse_number s = .ok (.fin q)) ∧
      (b = 0 → a ≠ 0 → Num._parse_number s = .error .divisionByZero) ∧
      (b = 0 → a = 0 → Num._parse_number s = .error .invalidOperation)) := by
  refine ⟨Num.parse_number_not_two, Num.parse_number_bad_left,
    fun a hs ha hd => Num.parse_number_bad_right hs ha hd, ?_⟩
  intro a b hs ha hb
  have hmain := Num.parse_number_intLit hs ha hb
  refine ⟨?_, ?_, ?_⟩
  · intro hbz
    refine ⟨Num.roundSig 28 ((a : ℚ) / (b : ℚ)), ?_⟩
    rw [hmain]
    simp only [Num.decDiv]
    rw [if_neg (by exact_mod_cast hbz : ¬((b : ℤ) : ℚ) = 0)]
  · intro hb0 haz
    rw [hmain]
    subst hb0
    simp only [Num.decDiv]
    rw [if_pos (by norm_num), if_neg (by exact_mod_cast haz : ¬((a : ℤ) : ℚ) = 0)]
  · intro hb0 ha0
    rw [hmain]
    subst hb0
    subst ha0
    simp only [Num.decDiv]
    rw [if_pos (by norm_num), if_pos (by norm_num)]

/-- C6 amended witness: `"1/0"` raises `DivisionByZero`, not the
spec's `FormatError`. -/
theorem claim_C6_error_conditions_amended_witness :
    Num._parse_number "1/0" = .error .divisionByZero := by
  have h := claim_C6_error_conditions_amended "1/0" "1" "0"
  exact ((h.2.2.2 1 0 (by decide) (by decide) (by decide)).2.1 rfl (by decide))

/--
C7: the slots parser raises for every slot whose value carries an
unrecognized type attribute and never silently skips one — an absent
slots subtree yields the empty mapping; a slot whose value's type tag
(defaulted to `"string"`) lies outside
`{integer, double, numeric, string, guid, gdate, timespec, frame}`
makes `slotOne` raise the `RuntimeError` (the spec's
`UnsupportedSchemaError`) naming that tag; any erroring slot makes the
whole decoding error; and a successful decoding implies every slot's
value type was recognized.
-/
theorem claim_C7_slot_types (tree v keyElem elt : Slots.XElem) (e : PyErr)
    (m : Slots.Slots) :
    (Slots._slots_from_tree none = .ok []) ∧
    (elt.find Slots.slotKeyTag = some keyElem →
      elt.find Slots.slotValueTag = some v →
      v.attrD "type" "string" ∉ Slots.recognizedSlotTypes →
      Slots.slotOne elt = .error (.runtimeError (v.attrD "type" "string"))) ∧
    (elt ∈ tree.findall "slot" → Slots.slotOne elt = .error e →
      ∃ e', Slots._slots_from_tree (some tree) = .error e') ∧
    (Slots._slots_from_tree (some tree) = .ok m →
      ∀ elt' ∈ tree.findall "slot", ∀ v' : Slots.XElem,
        elt'.find Slots.slotValueTag = some v' →
        v'.attrD "type" "string" ∈ Slots.recognizedSlotTypes) := by
  refine ⟨Slots.slots_from_tree_none, ?_, ?_, ?_⟩
  · intro hk hv ht
    exact Slots.slotOne_unknown hk hv ht
  · intro hmem herr
    rw [Slots.slots_from_tree_some]
    exact Slots.slotsList_error_of_mem (tree.findall "slot") [] hmem herr
  · intro hok elt' hmem v' hv'
    rw [Slots.slots_from_tree_some] at hok
    exact Slots.slotsList_ok_types (tree.findall "slot") [] hok elt' hmem v' hv'

/-- C7 witness: a concrete slot of type `weird` is fatal for the whole
subtree, while the absent subtree decodes to the empty mapping. -/
theorem claim_C7_slot_types_witness :
    (Slots._slots_from_tree none = .ok []) ∧
    Slots.slotOne slotBad = .error (.runtimeError "weird") ∧
    (∃ e', Slots._slots_from_tree (some slotsBadTree) = .error e') := by
  have h := claim_C7_slot_types slotsBadTree slotBadValue slotBadKey slotBad
    (.runtimeError "weird") []
  have hfatal : Slots.slotOne slotBad = .error (.runtimeError "weird") :=
    h.2.1 rfl rfl (by decide)
  refine ⟨h.1, hfatal, h.2.2.1 ?_ hfatal⟩
  exact List.Mem.head _

/--
C8: in the ledger report, transactions are rendered in the order of
`sorted(self.transactions)`: a permutation of the original list that
is sorted by posting date (no transaction is followed by one with a
strictly earlier date), and stable — for every date, the transactions
carrying that date appear exactly in their original document order.
-/
theorem claim_C8_ledger_sort (b : Book) :
    b.ledgerTransactions.Perm b.transactions ∧
    b.ledgerTransactions.Pairwise (fun x y => Ledger.trnLe x y = true) ∧
    (∀ d : Ledger.PyDateTime,
      b.ledgerTransactions.filter (fun t => t.date == d)
        = b.transactions.filter (fun t => t.date == d)) := by
  have htrans : ∀ a b c : Ledger.Transaction,
      Ledger.trnLe a b → Ledger.trnLe b c → Ledger.trnLe a c := Ledger.trnLe_trans
  have htotal : ∀ a b : Ledger.Transaction,
      Ledger.trnLe a b || Ledger.trnLe b a := Ledger.trnLe_total
  refine ⟨List.mergeSort_perm b.transactions Ledger.trnLe, ?_, ?_⟩
  · exact List.sorted_mergeSort htrans htotal b.transactions
  · intro d
    have hdate : ∀ t ∈ b.transactions.filter (fun t => t.date == d), t.date = d := by
      intro t ht
      have := List.of_mem_filter ht
      exact eq_of_beq this
    have hpair : (b.transactions.filter (fun t => t.date == d)).Pairwise
        (fun x y => Ledger.trnLe x y) := by
      refine List.pairwise_of_forall_mem_list ?_
      intro x hx y hy
      have hxd := hdate x hx
      have hyd := hdate y hy
      show Ledger.trnLe x y = true
      rw [Ledger.trnLe, hxd, hyd, Ledger.dtLt, Ledger.natListLt_irrefl]
      rfl
    have hsub : List.Sublist (b.transactions.filter (fun t => t.date == d))
        b.transactions :=
      List.filter_sublist _
    have hsubsort : List.Sublist (b.transactions.filter (fun t => t.date == d))
        b.ledgerTransactions :=
      List.sublist_mergeSort htrans htotal hpair hsub
    have hall : ∀ t ∈ b.transactions.filter (fun t => t.date == d),
        (t.date == d) = true := by
      intro t ht
      exact List.of_mem_filter (p := fun t : Ledger.Transaction => t.date == d) ht
    have hsubfil : List.Sublist (b.transactions.filter (fun t => t.date == d))
        (b.ledgerTransactions.filter (fun t => t.date == d)) := by
      have := List.Sublist.filter (fun t : Ledger.Transaction => t.date == d) hsubsort
      rwa [List.filter_eq_self.mpr hall] at this
    have hperm : (b.ledgerTransactions.filter (fun t => t.date == d)).Perm
        (b.transactions.filter (fun t => t.date == d)) :=
      List.Perm.filter _ (List.mergeSort_perm b.transactions Ledger.trnLe)
    exact (List.Sublist.eq_of_length hsubfil hperm.length_eq.symm).symm

/--
C9 counterexample: with lxml installed (the import the module
prefers), a stream that is not well-formed XML does not fail with the
`FormatError` `ValueError`: the `except ParseError` clause names only
the stdlib exception class, so lxml's `XMLSyntaxError` propagates
instead.
-/
theorem claim_C9_format_error_counterexample :
    Parse.parse .lxml .notWellFormed = .error .xmlSyntaxError ∧
    Parse.ParseExc.xmlSyntaxError ≠ Parse.ParseExc.formatValueError := by
  exact ⟨rfl, by decide⟩

/--
C9 amended: `parse` exposes no Book on any stream that is not
well-formed XML or whose root tag is not `gnc-v2`.  A wrong root tag
raises the `FormatError` `ValueError` under either XML backend, and so
does a non-well-formed stream under the stdlib backend; but with lxml
installed a non-well-formed stream raises lxml's `XMLSyntaxError`
uncaught (still no partial Book) rather than the `FormatError` — in
particular, valid gzip decompressing to non-XML bytes never yields a
silent empty Book, but the exception class depends on the backend.
-/
theorem claim_C9_format_error_amended (backend : Parse.Backend) (root : Slots.XElem) :
    (∀ res, Parse.parse backend .notWellFormed ≠ .ok res) ∧
    (Parse.parse .stdlib .notWellFormed = .error .formatValueError) ∧
    (root.tag ≠ "gnc-v2" → Parse.parse backend (.ok root) = .error .formatValueError) ∧
    (Parse.parse .lxml .notWellFormed = .error .xmlSyntaxError) := by
  refine ⟨?_, rfl, ?_, rfl⟩
  · intro res h
    cases backend with
    | stdlib => cases h
    | lxml => cases h
  · intro htag
    rw [Parse.parse, if_pos htag]

/-- C9 amended witness: a well-formed document with root tag `bad`
fails with the `FormatError` `ValueError`. -/
theorem claim_C9_format_error_amended_witness :
    Parse.parse .stdlib (.ok (.mk "bad" [] none [])) = .error .formatValueError := by
  have h := claim_C9_format_error_amended .stdlib (.mk "bad" [] none [])
  exact h.2.2.1 (by decide)

/--
C10 (implicit): in the ledger report, a transaction whose splits list
is empty is rendered with the reconciled marker `" *"` on its header
line, because `all(...)` over an empty splits list is vacuously true.
-/
theorem claim_C10_empty_splits_reconciled (b : Book) (t : Ledger.Transaction)
    (hmem : t ∈ b.ledgerTransactions) (hempty : t.splits = []) :
    Ledger.allReconciled t = true ∧
    (∀ s, Ledger.transactionHeader t = .ok s →
      ∃ rest, s = Ledger.fmtDate t.date ++ " *" ++ rest) := by
  have hrec : Ledger.allReconciled t = true := by
    rw [Ledger.allReconciled, hempty]
    rfl
  refine ⟨hrec, ?_⟩
  intro s hs
  rw [Ledger.transactionHeader] at hs
  cases hnp : Ledger.notesPart t with
  | error e =>
      rw [hnp] at hs
      cases hs
  | ok np =>
      rw [hnp] at hs
      simp only [Except.map, Except.ok.injEq] at hs
      rw [if_pos hrec] at hs
      refine ⟨Ledger.descPart t ++ np, ?_⟩
      rw [← hs, String.append_assoc, String.append_assoc]

/-- C10 witness: a concrete splitless transaction renders with the
`" *"` marker. -/
theorem claim_C10_empty_splits_reconciled_witness :
    Ledger.allReconciled trnW = true ∧
    (∃ rest, "2020/01/02 * desc" = Ledger.fmtDate trnW.date ++ " *" ++ rest) := by
  have h := claim_C10_empty_splits_reconciled bookT trnW
    (List.mem_mergeSort.mpr (List.Mem.head _)) rfl
  exact ⟨h.1, h.2 "2020/01/02 * desc" (by rfl)⟩

end Gnucash
